import Mathlib

/-! # NanoVis window: camera controller, widget bindings and refresh driver

A shallow embedding of `src/window.cpp`.  Floating point numbers are read as exact
numbers of an ordered field `K` (so the development can be evaluated over `ℚ` and
instantiated at `ℝ`).  The C math library (`cos`, `sin`, `sqrt`, `M_PI`) is a parameter,
the toolkit's widgets are small records that log the calls made on them.  The refresh
closure of the vector graph is embedded a second time on doubles with infinities and
NaN (`Dbl`), where its behaviour on the special values is stated.
-/

namespace NanoVis

/-! ## Numeric ambient -/

/-- The math library used by the camera code: `M_PI`, `cos`, `sin` and `sqrt`. -/
structure MathLib (K : Type) where
  pi : K
  cos : K → K
  sin : K → K
  sqrt : K → K

/-- A computable math library over the rationals, for evaluating the definitions at
concrete inputs: `cos` and `sin` give a rational point of the unit circle (exact at
angle `0`) and `sqrt` is exact on the squares of `0` and `1`. -/
def ratMath : MathLib ℚ where
  pi := 22 / 7
  cos := fun t => (1 - t * t) / (1 + t * t)
  sin := fun t => (2 * t) / (1 + t * t)
  sqrt := fun t => if t = 0 then 0 else 1

/-- `std::max(a, b)`: returns `b` when `a < b`, otherwise `a`. -/
def stdMax {K : Type} [LinearOrderedField K] (a b : K) : K := if a < b then b else a

/-- `std::min(a, b)`: returns `b` when `b < a`, otherwise `a`. -/
def stdMin {K : Type} [LinearOrderedField K] (a b : K) : K := if b < a then b else a

/-! ## Camera controller -/

/-- An integer pixel position (`Vector2i`). -/
structure Vector2i where
  x : Int
  y : Int
deriving DecidableEq, Repr

/-- A pair of numbers (`Vector2f`). -/
structure Vector2f (K : Type) where
  x : K
  y : K
deriving DecidableEq, Repr

/-- A triple of numbers (`Vector3f`); components `0, 1, 2` are `x, y, z`. -/
structure Vector3f (K : Type) where
  x : K
  y : K
  z : K
deriving DecidableEq, Repr

/-- The camera fields of `NanoVisWindow`.  `viewport_ryp` holds the orientation:
component `0` is `x`, component `1` is `y`, component `2` is `z`. -/
structure CameraState (K : Type) where
  viewport_ryp : Vector3f K
  viewport_xyz : Vector3f K
  viewport_scale : K
  viewport_ryp_old : Vector3f K
  viewport_xyz_old : Vector3f K
  viewport_cursor_old : Vector2i
  viewport_rotation_mode : Bool
  viewport_translation_mode : Bool
deriving DecidableEq, Repr

section Camera

variable {K : Type} [LinearOrderedField K]

/-- Column vector of a `Vector3f`. -/
def Vector3f.toFun (v : Vector3f K) : Fin 3 → K := ![v.x, v.y, v.z]

/-- The `Vector3f` with the entries of a column vector. -/
def Vector3f.ofFun (v : Fin 3 → K) : Vector3f K := ⟨v 0, v 1, v 2⟩

/-- The camera fields set by the constructor `NanoVisWindow::NanoVisWindow`; the fields
it leaves unset are taken as parameters. -/
def CameraState.init (ryp_old xyz_old : Vector3f K) (cursor_old : Vector2i)
    (rotation_mode translation_mode : Bool) : CameraState K where
  viewport_ryp := ⟨0, -45, -42⟩
  viewport_xyz := ⟨-8, -8, 8⟩
  viewport_scale := 1
  viewport_ryp_old := ryp_old
  viewport_xyz_old := xyz_old
  viewport_cursor_old := cursor_old
  viewport_rotation_mode := rotation_mode
  viewport_translation_mode := translation_mode

/-- `Eigen::AngleAxisf(angle, axis)` converted to a rotation matrix, as Eigen's
`AngleAxis::toRotationMatrix` computes it. -/
def angleAxis (M : MathLib K) (angle : K) (axis : Fin 3 → K) : Matrix (Fin 3) (Fin 3) K :=
  let s := M.sin angle
  let c := M.cos angle
  let sin_axis : Fin 3 → K := fun i => s * axis i
  let cos1_axis : Fin 3 → K := fun i => (1 - c) * axis i
  !![cos1_axis 0 * axis 0 + c, cos1_axis 0 * axis 1 - sin_axis 2,
       cos1_axis 0 * axis 2 + sin_axis 1;
     cos1_axis 0 * axis 1 + sin_axis 2, cos1_axis 1 * axis 1 + c,
       cos1_axis 1 * axis 2 - sin_axis 0;
     cos1_axis 0 * axis 2 - sin_axis 1, cos1_axis 1 * axis 2 + sin_axis 0,
       cos1_axis 2 * axis 2 + c]

/-- `Vector3f::UnitX()`. -/
def unitX : Fin 3 → K := ![1, 0, 0]

/-- `Vector3f::UnitY()`. -/
def unitY : Fin 3 → K := ![0, 1, 0]

/-- `Vector3f::UnitZ()`. -/
def unitZ : Fin 3 → K := ![0, 0, 1]

/-- The rotation `R` that `world_matrix` accumulates (source lines 299-302). -/
def worldRotation (M : MathLib K) (st : CameraState K) : Matrix (Fin 3) (Fin 3) K :=
  let R0 : Matrix (Fin 3) (Fin 3) K := 1
  let R1 := angleAxis M (st.viewport_ryp.x * M.pi / 180) unitY * R0
  let R2 := angleAxis M (st.viewport_ryp.z * M.pi / 180) unitX * R1
  angleAxis M (st.viewport_ryp.y * M.pi / 180) unitZ * R2

/-- `NanoVisWindow::world_matrix`. -/
def world_matrix (M : MathLib K) (st : CameraState K) : Matrix (Fin 4) (Fin 4) K :=
  let R := worldRotation M st
  let t : Fin 3 → K := (-R.transpose).mulVec st.viewport_xyz.toFun
  !![R.transpose 0 0, R.transpose 0 1, R.transpose 0 2, t 0;
     R.transpose 1 0, R.transpose 1 1, R.transpose 1 2, t 1;
     R.transpose 2 0, R.transpose 2 1, R.transpose 2 2, t 2;
     0, 0, 0, 1]

/-- `NanoVisWindow::view_matrix`. -/
def view_matrix : Matrix (Fin 4) (Fin 4) K :=
  !![1, 0, 0, 0;
     0, 0, -1, 0;
     0, 1, 0, 0;
     0, 0, 0, 1]

/-- `m.block<3, 3>(0, 0)`: the upper-left 3x3 block of a 4x4 matrix. -/
def block33 (m : Matrix (Fin 4) (Fin 4) K) : Matrix (Fin 3) (Fin 3) K :=
  !![m 0 0, m 0 1, m 0 2;
     m 1 0, m 1 1, m 1 2;
     m 2 0, m 2 1, m 2 2]

/-- `m.block<3, 2>(0, 0)`: the first two columns of a 3x3 matrix. -/
def block32 (m : Matrix (Fin 3) (Fin 3) K) : Matrix (Fin 3) (Fin 2) K :=
  !![m 0 0, m 0 1;
     m 1 0, m 1 1;
     m 2 0, m 2 1]

/-- `v.normalize()` as Eigen does it: divide by the norm when the squared norm is
positive, leave the vector alone otherwise. -/
def normalize (M : MathLib K) (v : Fin 3 → K) : Fin 3 → K :=
  let z := v 0 * v 0 + v 1 * v 1 + v 2 * v 2
  if 0 < z then fun i => v i / M.sqrt z else v

/-- `NanoVisWindow::mouseButtonEvent(p, button, down, modifiers)`. -/
def mouseButtonEvent (st : CameraState K) (p : Vector2i) (button : Int) (down : Bool)
    (_modifiers : Int) : CameraState K :=
  let st1 := { st with
    viewport_xyz_old := st.viewport_xyz
    viewport_ryp_old := st.viewport_ryp
    viewport_cursor_old := p }
  if down then
    if button = 0 then
      { st1 with viewport_translation_mode := true, viewport_rotation_mode := false }
    else if button = 1 then
      { st1 with viewport_rotation_mode := true, viewport_translation_mode := false }
    else st1
  else
    { st1 with viewport_translation_mode := false, viewport_rotation_mode := false }

/-- The local `delta` of `mouseMotionEvent`: a tenth of the cursor displacement since
the baseline cursor. -/
def dragDelta (st : CameraState K) (p : Vector2i) : Vector2f K :=
  ⟨((p.x - st.viewport_cursor_old.x : Int) : K) * (1 / 10),
   ((p.y - st.viewport_cursor_old.y : Int) : K) * (1 / 10)⟩

/-- The local `world_view_dcm` of `mouseMotionEvent`. -/
def world_view_dcm (M : MathLib K) (st : CameraState K) : Matrix (Fin 3) (Fin 3) K :=
  (block33 (view_matrix * world_matrix M st)).transpose

/-- `NanoVisWindow::mouseMotionEvent(p, rel, button, modifiers)`. -/
def mouseMotionEvent (M : MathLib K) (st : CameraState K) (p : Vector2i)
    (_rel : Vector2i) (_button : Int) (modifiers : Int) : CameraState K :=
  let delta := dragDelta st p
  if st.viewport_rotation_mode then
    { st with viewport_ryp :=
        ⟨st.viewport_ryp.x, st.viewport_ryp_old.y + delta.x, st.viewport_ryp_old.z + delta.y⟩ }
  else if st.viewport_translation_mode then
    let dcm := world_view_dcm M st
    let pos : Fin 3 → K :=
      if modifiers = 0 then
        st.viewport_xyz_old.toFun - (block32 dcm).mulVec ![delta.x, delta.y]
      else if modifiers = 1 then
        let dz0 : Fin 3 → K := fun i => dcm i 2
        let dz := normalize M ![dz0 0, dz0 1, 0]
        fun i => st.viewport_xyz_old.toFun i - dcm i 0 * delta.x + dz i * delta.y
      else st.viewport_xyz_old.toFun
    { st with viewport_xyz := Vector3f.ofFun pos }
  else st

/-- `NanoVisWindow::mouseDragEvent`: acknowledged, no state change. -/
def mouseDragEvent (st : CameraState K) (_p _rel : Vector2i) (_button _modifiers : Int) :
    CameraState K := st

/-- `NanoVisWindow::mouseEnterEvent`: acknowledged, no state change. -/
def mouseEnterEvent (st : CameraState K) (_p : Vector2i) (_enter : Bool) : CameraState K := st

/-- `NanoVisWindow::mouseScrollEvent(p, rel)`. -/
def mouseScrollEvent (st : CameraState K) (_p : Vector2i) (rel : Vector2f K) : CameraState K :=
  { st with viewport_scale := st.viewport_scale + rel.y * (1 / 100) }

/-- A pointer event as the toolkit delivers it. -/
inductive PointerEvent (K : Type) where
  | button (p : Vector2i) (button : Int) (down : Bool) (modifiers : Int)
  | motion (p rel : Vector2i) (button modifiers : Int)
  | drag (p rel : Vector2i) (button modifiers : Int)
  | enter (p : Vector2i) (enter : Bool)
  | scroll (p : Vector2i) (rel : Vector2f K)

/-- Dispatch of one pointer event to its handler. -/
def handle (M : MathLib K) (st : CameraState K) : PointerEvent K → CameraState K
  | .button p b d m => mouseButtonEvent st p b d m
  | .motion p rel b m => mouseMotionEvent M st p rel b m
  | .drag p rel b m => mouseDragEvent st p rel b m
  | .enter p e => mouseEnterEvent st p e
  | .scroll p rel => mouseScrollEvent st p rel

/-- The camera states after each event of a sequence, in order (one per event). -/
def trace (M : MathLib K) : CameraState K → List (PointerEvent K) → List (CameraState K)
  | _, [] => []
  | st, e :: es => handle M st e :: trace M (handle M st e) es

/-- At most one of the two mode flags is set. -/
def AtMostOneMode (st : CameraState K) : Prop :=
  ¬ (st.viewport_rotation_mode = true ∧ st.viewport_translation_mode = true)

end Camera

/-! ## Widgets bound to external values -/

/-- The toolkit's `Button`, reduced to its pushed flag, with the arguments of the
`setPushed` calls made on it logged in order. -/
structure Button where
  pushed : Bool
  setPushedCalls : List Bool
deriving DecidableEq, Repr

/-- `Button::setPushed(v)`. -/
def Button.setPushed (b : Button) (v : Bool) : Button :=
  { pushed := v, setPushedCalls := b.setPushedCalls ++ [v] }

/-- The refresh closure `subscriber` of the bound `add_toggle` (source lines 58-62),
run with the external boolean holding `value`. -/
def toggleSubscriber (value : Bool) (b : Button) : Button :=
  if b.pushed != value then b.setPushed value else b

/-- A call made by the change callback of the bound toggle. -/
inductive ToggleCall where
  | notify (value : Bool)
  | callback (new_value : Bool)
deriving DecidableEq, Repr

/-- What the change callback of the bound toggle can touch: the external boolean and
the calls to `notify` and to the user callback, logged in order. -/
structure ToggleWorld where
  value : Bool
  calls : List ToggleCall
deriving DecidableEq, Repr

/-- The change callback installed by the bound `add_toggle` (source lines 66-74);
`callback` tells whether the user callback is non-empty. -/
def toggleChangeCallback (callback : Bool) (w : ToggleWorld) (new_value : Bool) : ToggleWorld :=
  if w.value != new_value then
    let w1 : ToggleWorld := { w with value := new_value }
    let w2 : ToggleWorld := { w1 with calls := w1.calls ++ [ToggleCall.notify w1.value] }
    if callback then
      { w2 with calls := w2.calls ++ [ToggleCall.callback new_value] }
    else w2
  else w

/-- The toolkit's `Graph`: its buffer of values and the raw number whose text was last
set as footer (`none` before any `setFooter`). -/
structure Graph (K : Type) where
  values : List K
  footer : Option K
deriving DecidableEq, Repr

section Graphs

variable {K : Type} [LinearOrderedField K]

/-- The normalised sample `(value - min_value) / (max_value - min_value)`. -/
def normalized (max_value min_value value : K) : K :=
  (value - min_value) / (max_value - min_value)

/-- The loop `for (i = 1; i < f.rows(); ++i) f[i - 1] = f[i];` of the scalar graph's
refresh closure; iteration `k` is `i = k + 1`. -/
def shiftLoop (f : List K) : List K :=
  (List.range (f.length - 1)).foldl (fun g k => g.set k (g.getD (k + 1) 0)) f

/-- The refresh closure `subscriber` of the scalar `add_graph` (source lines 109-116),
run with the external number holding `value`. -/
def scalarSubscriber (max_value min_value value : K) (g : Graph K) : Graph K :=
  let f := shiftLoop g.values
  { values := f.set (f.length - 1) (normalized max_value min_value value)
    footer := some value }

/-- The graph as the scalar `add_graph` leaves it (source lines 101-117): sixty copies
of the normalised value, then one run of the refresh closure. -/
def add_graph_scalar (max_value min_value value : K) : Graph K :=
  scalarSubscriber max_value min_value value
    { values := List.replicate 60 (normalized max_value min_value value), footer := none }

/-- The graph after refreshes that read the given values in turn. -/
def scalarRefreshes (max_value min_value : K) (g : Graph K) (vs : List K) : Graph K :=
  vs.foldl (fun g v => scalarSubscriber max_value min_value v g) g

/-- The constant `std::numeric_limits<double>::max()`. -/
def dblMax : K := (2 ^ 53 - 1) * 2 ^ 971

/-- The constant `std::numeric_limits<double>::epsilon()`. -/
def dblEpsilon : K := 1 / 2 ^ 52

/-- The pair `(computed_max_value, computed_min_value)` of the vector graph's refresh
closure (source lines 129-139). -/
def computedBounds (max_value min_value : K) (values : List K) : K × K :=
  if max_value ≤ min_value then
    values.foldl (fun b v => (stdMax b.1 v, stdMin b.2 v)) (-dblMax, dblMax)
  else (max_value, min_value)

/-- The divisor of the vector graph's refresh closure (source line 141). -/
def divisor (max_value min_value : K) (values : List K) : K :=
  let b := computedBounds max_value min_value values
  stdMax (b.1 - b.2) dblEpsilon

/-- The refresh closure `subscriber` of the vector `add_graph` (source lines 126-143),
run with the external sequence holding `values`: the buffer is resized to the length
of the sequence and every entry is written. -/
def vectorSubscriber (max_value min_value : K) (values : List K) (g : Graph K) : Graph K :=
  let b := computedBounds max_value min_value values
  { g with values := values.map (fun v => (v - b.2) / divisor max_value min_value values) }

end Graphs

/-! ## The vector graph on doubles with infinities and NaN -/

/-- A `double` as the vector graph can be handed it: a finite value, read as an exact
rational, or one of the IEEE 754 special values.  Rounding, overflow and the sign of
zero are not modelled. -/
inductive Dbl where
  | nan
  | negInf
  | fin (q : ℚ)
  | posInf
deriving DecidableEq, Repr

/-- The comparison `a < b` of doubles; false when either side is NaN. -/
def Dbl.lt : Dbl → Dbl → Bool
  | .nan, _ => false
  | _, .nan => false
  | .negInf, .negInf => false
  | .negInf, _ => true
  | .fin _, .negInf => false
  | .fin a, .fin b => decide (a < b)
  | .fin _, .posInf => true
  | .posInf, _ => false

/-- The comparison `a <= b` of doubles; false when either side is NaN. -/
def Dbl.le : Dbl → Dbl → Bool
  | .nan, _ => false
  | _, .nan => false
  | .negInf, _ => true
  | .fin _, .negInf => false
  | .fin a, .fin b => decide (a ≤ b)
  | .fin _, .posInf => true
  | .posInf, .posInf => true
  | .posInf, _ => false

/-- The difference `a - b` of doubles. -/
def Dbl.sub : Dbl → Dbl → Dbl
  | .nan, _ => .nan
  | _, .nan => .nan
  | .posInf, .posInf => .nan
  | .negInf, .negInf => .nan
  | .posInf, _ => .posInf
  | .negInf, _ => .negInf
  | .fin _, .posInf => .negInf
  | .fin _, .negInf => .posInf
  | .fin a, .fin b => .fin (a - b)

/-- The quotient `a / b` of doubles. -/
def Dbl.div : Dbl → Dbl → Dbl
  | .nan, _ => .nan
  | _, .nan => .nan
  | .posInf, .posInf => .nan
  | .posInf, .negInf => .nan
  | .negInf, .posInf => .nan
  | .negInf, .negInf => .nan
  | .posInf, .fin d => if d < 0 then .negInf else .posInf
  | .negInf, .fin d => if d < 0 then .posInf else .negInf
  | .fin _, .posInf => .fin 0
  | .fin _, .negInf => .fin 0
  | .fin a, .fin d =>
    if d = 0 then (if a = 0 then .nan else if 0 < a then .posInf else .negInf)
    else .fin (a / d)

/-- `std::max(a, b)` on doubles: returns `b` when `a < b`, otherwise `a`. -/
def stdMaxD (a b : Dbl) : Dbl := if Dbl.lt a b then b else a

/-- `std::min(a, b)` on doubles: returns `b` when `b < a`, otherwise `a`. -/
def stdMinD (a b : Dbl) : Dbl := if Dbl.lt b a then b else a

/-- The pair `(computed_max_value, computed_min_value)` of the vector graph's refresh
closure (source lines 129-139), on doubles. -/
def computedBoundsD (max_value min_value : Dbl) (values : List Dbl) : Dbl × Dbl :=
  if Dbl.le max_value min_value then
    values.foldl (fun b v => (stdMaxD b.1 v, stdMinD b.2 v))
      (Dbl.fin (-dblMax), Dbl.fin dblMax)
  else (max_value, min_value)

/-- The divisor of the vector graph's refresh closure (source line 141), on doubles. -/
def divisorD (max_value min_value : Dbl) (values : List Dbl) : Dbl :=
  let b := computedBoundsD max_value min_value values
  stdMaxD (Dbl.sub b.1 b.2) (Dbl.fin dblEpsilon)

/-- The refresh closure `subscriber` of the vector `add_graph` (source lines 126-143),
on doubles. -/
def vectorSubscriberD (max_value min_value : Dbl) (values : List Dbl) (g : Graph Dbl) :
    Graph Dbl :=
  let b := computedBoundsD max_value min_value values
  { g with values :=
      values.map (fun v => Dbl.div (Dbl.sub v b.2) (divisorD max_value min_value values)) }

/-! ## Binding registry and refresh driver -/

section Registry

/-- Modelled from the spec: the container type of `m_subscribers` is declared in
`window.h`, which is missing.  The spec says that a registration appends to the set of
bindings of its identity and that a refresh runs through one identity's set in
registration order, so a mapping is a list of pairs with pairwise distinct keys, in the
order in which the keys were first assigned; keys are addresses. -/
abbrev OrderedMap (V : Type) := List (Nat × V)

/-- Modelled from the spec: `m[k] = v` on such a mapping: overwrite the entry of key `k`
where it stands, or append a new entry when `k` is not a key yet. -/
def OrderedMap.assign {V : Type} (k : Nat) (v : V) : OrderedMap V → OrderedMap V
  | [] => [(k, v)]
  | (k1, v1) :: rest =>
    if k = k1 then (k, v) :: rest
    else (k1, v1) :: OrderedMap.assign k v rest

/-- Modelled from the spec: lookup in such a mapping (`count(k) > 0` and `at(k)`). -/
def OrderedMap.find {V : Type} (k : Nat) : OrderedMap V → Option V
  | [] => none
  | (k1, v1) :: rest => if k = k1 then some v1 else OrderedMap.find k rest

variable {C : Type}

/-- The field `m_subscribers`: external-value identity to (element to closure); a
closure may be empty (`none`). -/
abbrev Subscribers (C : Type) := OrderedMap (OrderedMap (Option C))

/-- The statement `m_subscribers[(void *)(&value)][element] = subscriber` of the widget
factories; `operator[]` on the outer map creates an empty inner map when the identity
is new. -/
def register (value element : Nat) (subscriber : Option C) (m : Subscribers C) :
    Subscribers C :=
  OrderedMap.assign value
    (OrderedMap.assign element subscriber ((OrderedMap.find value m).getD [])) m

/-- One binding registration: identity of the external value, element, closure. -/
structure Registration (C : Type) where
  value : Nat
  element : Nat
  subscriber : Option C

/-- The registry after a sequence of registrations on an empty one. -/
def registerAll (regs : List (Registration C)) : Subscribers C :=
  regs.foldl (fun m r => register r.value r.element r.subscriber m) []

/-- One closure invocation: the identity it is registered under, its element and the
closure invoked. -/
abbrev Invocation (C : Type) := Nat × Nat × C

/-- `NanoVisWindow::broadcast(value)`: the invocations it makes, in order. -/
def broadcast (m : Subscribers C) (value : Nat) : List (Invocation C) :=
  match OrderedMap.find value m with
  | some inner =>
    inner.filterMap (fun s => match s.2 with
      | some c => some (value, s.1, c)
      | none => none)
  | none => []

/-- `NanoVisWindow::refresh`: the invocations it makes, in order (the final `drawAll`
invokes no closure). -/
def refresh (m : Subscribers C) : List (Invocation C) :=
  m.flatMap (fun s => broadcast m s.1)

/-- The invocation a registration asks for, if its closure is non-empty. -/
def Registration.invocation (r : Registration C) : Option (Invocation C) :=
  match r.subscriber with
  | some c => some (r.value, r.element, c)
  | none => none

end Registry

section RegistryAux
variable {C : Type}

/-- The keys of a mapping are pairwise distinct. -/
def keysDistinct {V : Type} (l : OrderedMap V) : Prop :=
  List.Pairwise (fun a b => a.1 ≠ b.1) l

/-- Both levels of `m_subscribers` have pairwise distinct keys. -/
def wellFormed (m : Subscribers C) : Prop :=
  keysDistinct m ∧ ∀ s ∈ m, keysDistinct s.2

/-- All bindings held by `m_subscribers`, in iteration order: identity, element,
closure. -/
def entries (m : Subscribers C) : List (Nat × Nat × Option C) :=
  m.flatMap (fun s => s.2.map (fun e => (s.1, e.1, e.2)))

/-- The binding a registration stores. -/
def Registration.entry (r : Registration C) : Nat × Nat × Option C :=
  (r.value, r.element, r.subscriber)

/-- The invocation `broadcast` makes for a stored binding, if its closure is non-empty. -/
def entryInvocation (e : Nat × Nat × Option C) : Option (Invocation C) :=
  match e.2.2 with
  | some c => some (e.1, e.2.1, c)
  | none => none
end RegistryAux

/-! ## Camera matrices: projection, placement and axis rotations -/

section CameraMatrices

variable {K : Type} [LinearOrderedField K]

/-- `NanoVisWindow::proj_matrix(near, far)`; `width` and `height` are what the screen's
`width()` and `height()` return. -/
def proj_matrix (width height : Int) (near far : K) : Matrix (Fin 4) (Fin 4) K :=
  let f : K := (height : K)
  !![2 * f / (width : K), 0, 0, 0;
     0, -2 * f / (height : K), 0, 0;
     0, 0, (far + near) / (far - near), 2 * far * near / (near - far);
     0, 0, 1, 0]

/-- The homogeneous point `(x, y, z, 1)`. -/
def homogeneous (x y z : K) : Fin 4 → K := ![x, y, z, 1]

/-- The spec's placement matrix of the camera: rotation `R` of `world_matrix` in the
upper-left block, the position in the last column, last row `(0, 0, 0, 1)`. -/
def placement (M : MathLib K) (st : CameraState K) : Matrix (Fin 4) (Fin 4) K :=
  let R := worldRotation M st
  !![R 0 0, R 0 1, R 0 2, st.viewport_xyz.x;
     R 1 0, R 1 1, R 1 2, st.viewport_xyz.y;
     R 2 0, R 2 1, R 2 2, st.viewport_xyz.z;
     0, 0, 0, 1]

/-- The spec's rotation by `angle` (radians) about the X axis. -/
def rotX (M : MathLib K) (angle : K) : Matrix (Fin 3) (Fin 3) K :=
  !![1, 0, 0;
     0, M.cos angle, -M.sin angle;
     0, M.sin angle, M.cos angle]

/-- The spec's rotation by `angle` (radians) about the Y axis. -/
def rotY (M : MathLib K) (angle : K) : Matrix (Fin 3) (Fin 3) K :=
  !![M.cos angle, 0, M.sin angle;
     0, 1, 0;
     -M.sin angle, 0, M.cos angle]

/-- The spec's rotation by `angle` (radians) about the Z axis. -/
def rotZ (M : MathLib K) (angle : K) : Matrix (Fin 3) (Fin 3) K :=
  !![M.cos angle, -M.sin angle, 0;
     M.sin angle, M.cos angle, 0;
     0, 0, 1]

/-- Degrees to radians as `world_matrix` converts them: `deg * M_PI / 180`. -/
def radians (M : MathLib K) (deg : K) : K := deg * M.pi / 180

end CameraMatrices

/-! ## Panels and their grid -/

/-- The toolkit's `AdvancedGridLayout::Anchor(x, y, w, h)`. -/
structure Anchor where
  x : Nat
  y : Nat
  w : Nat
  h : Nat
deriving DecidableEq, Repr

/-- The toolkit's `AdvancedGridLayout`, reduced to its column widths, row heights,
column stretches and margin, with the `setAnchor` calls made on it logged in order
(widget, anchor). -/
structure AdvancedGridLayout where
  cols : List Nat
  rows : List Nat
  colStretch : List Nat
  margin : Nat
  anchors : List (Nat × Anchor)
deriving DecidableEq, Repr

/-- `AdvancedGridLayout::rowCount()`. -/
def AdvancedGridLayout.rowCount (l : AdvancedGridLayout) : Nat := l.rows.length

/-- `AdvancedGridLayout::colCount()`. -/
def AdvancedGridLayout.colCount (l : AdvancedGridLayout) : Nat := l.cols.length

/-- `AdvancedGridLayout::appendRow(size)`. -/
def AdvancedGridLayout.appendRow (l : AdvancedGridLayout) (size : Nat) : AdvancedGridLayout :=
  { l with rows := l.rows ++ [size] }

/-- `AdvancedGridLayout::setAnchor(widget, anchor)`. -/
def AdvancedGridLayout.setAnchor (l : AdvancedGridLayout) (widget : Nat) (anchor : Anchor) :
    AdvancedGridLayout :=
  { l with anchors := l.anchors ++ [(widget, anchor)] }

/-- `NanoVisWindow::add_widget(title, widget)` acting on the layout `l` that
`layout(title)` returns (source lines 182-189). -/
def add_widget (l : AdvancedGridLayout) (widget : Nat) : AdvancedGridLayout :=
  let l1 := if l.rowCount > 0 then l.appendRow 3 else l
  let l2 := l1.appendRow 0
  l2.setAnchor widget ⟨0, l2.rowCount - 1, l2.colCount, 1⟩

/-- `NanoVisWindow::add_widget(title, widget_left, widget_right)` acting on the layout
`l` that `layout(title)` returns (source lines 191-203); a null widget is `none`. -/
def add_widget_pair (l : AdvancedGridLayout) (widget_left widget_right : Option Nat) :
    AdvancedGridLayout :=
  let l1 := if l.rowCount > 0 then l.appendRow 3 else l
  let l2 := l1.appendRow 0
  let l3 := match widget_left with
    | some w => l2.setAnchor w ⟨0, l2.rowCount - 1, 1, 1⟩
    | none => l2
  match widget_right with
  | some w => l3.setAnchor w ⟨2, l3.rowCount - 1, 1, 1⟩
  | none => l3

/-- One `add_widget` call: either overload with its widgets. -/
inductive AddWidgetCall where
  | one (widget : Nat)
  | pair (widget_left widget_right : Option Nat)
deriving DecidableEq, Repr

/-- The widgets a call passes (null ones left out), in the order they are anchored. -/
def AddWidgetCall.widgets : AddWidgetCall → List Nat
  | .one w => [w]
  | .pair wl wr => wl.toList ++ wr.toList

/-- Dispatch of one `add_widget` call to its overload. -/
def addWidgetCall (l : AdvancedGridLayout) : AddWidgetCall → AdvancedGridLayout
  | .one w => add_widget l w
  | .pair wl wr => add_widget_pair l wl wr

/-- The layout after a sequence of `add_widget` calls. -/
def addWidgetCalls (l : AdvancedGridLayout) (calls : List AddWidgetCall) : AdvancedGridLayout :=
  calls.foldl addWidgetCall l

/-- Row heights of a panel holding `n` widgets: content rows of height `0` with a
separator of height `3` between them. -/
def rowPattern : Nat → List Nat
  | 0 => []
  | 1 => [0]
  | n + 2 => rowPattern (n + 1) ++ [3, 0]

/-- The toolkit's `Window` as `panel` sets it up: the handle `new` returned, its title,
its layout and its visibility. -/
structure Window where
  handle : Nat
  title : String
  layout : AdvancedGridLayout
  visible : Bool
deriving DecidableEq, Repr

/-- The field `m_panels` (title to panel) together with the number of windows created
so far, which serves as the next fresh handle.  Modelled from the spec: the container
type of `m_panels` is declared in the missing `window.h`; titles are unique keys. -/
structure PanelRegistry where
  m_panels : List (String × Window)
  created : Nat
deriving DecidableEq, Repr

/-- `m_panels.count(title)`. -/
def PanelRegistry.count (reg : PanelRegistry) (title : String) : Nat :=
  reg.m_panels.countP (fun e => decide (e.1 = title))

/-- `m_panels.at(title)`; `none` where the container would throw. -/
def PanelRegistry.at (reg : PanelRegistry) (title : String) : Option Window :=
  (reg.m_panels.find? (fun e => decide (e.1 = title))).map Prod.snd

/-- `m_panels.emplace(title, w)`: inserts unless the title is already a key. -/
def PanelRegistry.emplace (reg : PanelRegistry) (title : String) (w : Window) :
    PanelRegistry :=
  if reg.count title = 0 then { reg with m_panels := reg.m_panels ++ [(title, w)] } else reg

/-- The window and layout that `panel` builds for a new title (source lines 207-213). -/
def newPanel (handle : Nat) (title : String) : Window :=
  { handle := handle
    title := title
    layout := { cols := [60, 3, 120], rows := [], colStretch := [0, 0, 1], margin := 5,
                anchors := [] }
    visible := true }

/-- `NanoVisWindow::panel(title)`: the registry afterwards and the panel returned. -/
def panel (reg : PanelRegistry) (title : String) : PanelRegistry × Option Window :=
  let reg1 :=
    if reg.count title = 0 then
      ({ reg with created := reg.created + 1 }).emplace title (newPanel reg.created title)
    else reg
  (reg1, reg1.at title)

/-- The registry after `panel` was called with each title in turn, from a window without
panels. -/
def panelCalls (titles : List String) : PanelRegistry :=
  titles.foldl (fun reg t => (panel reg t).1) ⟨[], 0⟩

/-! ## Repeating-action button -/

/-- What one tick of the repeating action can touch: the button, the state `user` the
predicate works on, and the number of predicate calls made. -/
structure RepeatWorld (W : Type) where
  button : Button
  user : W
  callbackCalls : Nat

/-- The interval closure that `add_repeat` installs (source lines 85-92), with the
predicate `callback` acting on the user state: the world afterwards and the value
returned. -/
def repeatTick {W : Type} (callback : W → Bool × W) (rw : RepeatWorld W) :
    RepeatWorld W × Bool :=
  let rw1 : RepeatWorld W :=
    if rw.button.pushed then
      let r := callback rw.user
      let rw0 : RepeatWorld W :=
        { rw with user := r.2, callbackCalls := rw.callbackCalls + 1 }
      if !r.1 then { rw0 with button := rw0.button.setPushed false } else rw0
    else rw
  (rw1, rw1.button.pushed)

/-- The change callback that `add_repeat` sets on the button (source lines 81-96), acting
on the list of `(closure, interval)` pairs installed with `setInterval`; the closure is
named by its predicate.  With an empty predicate no change callback is set. -/
def repeatChangeCallback {C : Type} (callback : Option C) (pushed : Bool)
    (intervals : List (C × Nat)) : List (C × Nat) :=
  match callback with
  | some c => if pushed then intervals ++ [(c, 1)] else intervals
  | none => intervals

/-! # Theorems -/

section CameraTheorems

/-- C1 as stated fails: from the idle constructor state over the rationals, a press
of button `0` does not leave the controller in Rotating and a press of button `1` does
not leave it in Translating. -/
theorem mouseButtonEvent_press_counterexample :
    ¬ ((mouseButtonEvent (CameraState.init (K := ℚ) ⟨0, 0, 0⟩ ⟨0, 0, 0⟩ ⟨0, 0⟩ false false)
          ⟨0, 0⟩ 0 true 0).viewport_rotation_mode = true ∧
       (mouseButtonEvent (CameraState.init (K := ℚ) ⟨0, 0, 0⟩ ⟨0, 0, 0⟩ ⟨0, 0⟩ false false)
          ⟨0, 0⟩ 0 true 0).viewport_translation_mode = false) ∧
    ¬ ((mouseButtonEvent (CameraState.init (K := ℚ) ⟨0, 0, 0⟩ ⟨0, 0, 0⟩ ⟨0, 0⟩ false false)
          ⟨0, 0⟩ 1 true 0).viewport_translation_mode = true ∧
       (mouseButtonEvent (CameraState.init (K := ℚ) ⟨0, 0, 0⟩ ⟨0, 0, 0⟩ ⟨0, 0⟩ false false)
          ⟨0, 0⟩ 1 true 0).viewport_rotation_mode = false) := by
  simp [mouseButtonEvent, CameraState.init]

/-- C1 amended: from every idle camera state, a press of button `0` leaves the
controller in Translating (translation flag true, rotation flag false) and a press of
button `1` leaves it in Rotating (rotation flag true, translation flag false). -/
theorem mouseButtonEvent_press_modes {K : Type} (st : CameraState K) (p : Vector2i)
    (modifiers : Int)
    (_hr : st.viewport_rotation_mode = false) (_ht : st.viewport_translation_mode = false) :
    ((mouseButtonEvent st p 0 true modifiers).viewport_translation_mode = true ∧
      (mouseButtonEvent st p 0 true modifiers).viewport_rotation_mode = false) ∧
    ((mouseButtonEvent st p 1 true modifiers).viewport_rotation_mode = true ∧
      (mouseButtonEvent st p 1 true modifiers).viewport_translation_mode = false) := by
  simp [mouseButtonEvent]

/-- Witness of C1 amended at the idle constructor state over the rationals. -/
theorem mouseButtonEvent_press_modes_witness :
    ((mouseButtonEvent (CameraState.init (K := ℚ) ⟨0, 0, 0⟩ ⟨0, 0, 0⟩ ⟨0, 0⟩ false false)
        ⟨3, 4⟩ 0 true 0).viewport_translation_mode = true ∧
      (mouseButtonEvent (CameraState.init (K := ℚ) ⟨0, 0, 0⟩ ⟨0, 0, 0⟩ ⟨0, 0⟩ false false)
        ⟨3, 4⟩ 0 true 0).viewport_rotation_mode = false) ∧
    ((mouseButtonEvent (CameraState.init (K := ℚ) ⟨0, 0, 0⟩ ⟨0, 0, 0⟩ ⟨0, 0⟩ false false)
        ⟨3, 4⟩ 1 true 0).viewport_rotation_mode = true ∧
      (mouseButtonEvent (CameraState.init (K := ℚ) ⟨0, 0, 0⟩ ⟨0, 0, 0⟩ ⟨0, 0⟩ false false)
        ⟨3, 4⟩ 1 true 0).viewport_translation_mode = false) :=
  mouseButtonEvent_press_modes
    (CameraState.init (K := ℚ) ⟨0, 0, 0⟩ ⟨0, 0, 0⟩ ⟨0, 0⟩ false false) ⟨3, 4⟩ 0 rfl rfl

/-- Every handler keeps "at most one mode flag set". -/
theorem handle_atMostOneMode {K : Type} [LinearOrderedField K] (M : MathLib K)
    (st : CameraState K) (e : PointerEvent K) (h : AtMostOneMode st) : AtMostOneMode (handle M st e) := by
  cases e with
  | button p b d m =>
    unfold AtMostOneMode at h ⊢
    simp only [handle, mouseButtonEvent]
    split_ifs <;> simp_all
  | motion p rel b m =>
    unfold AtMostOneMode at h ⊢
    simp only [handle, mouseMotionEvent]
    split_ifs <;> simp_all
  | drag p rel b m => simpa [handle, mouseDragEvent] using h
  | enter p e => simpa [handle, mouseEnterEvent] using h
  | scroll p rel => simpa [handle, mouseScrollEvent, AtMostOneMode] using h

/-- C2: along every sequence of pointer events started with at most one mode flag set,
at most one flag is set after every event, and both flags are false right after every
button event with `down = false`. -/
theorem mode_mutual_exclusion {K : Type} [LinearOrderedField K] (M : MathLib K)
    (st : CameraState K) (es : List (PointerEvent K)) (h : AtMostOneMode st) :
    (trace M st es).length = es.length ∧
    (∀ s ∈ trace M st es, AtMostOneMode s) ∧
    (∀ (i : Nat) (p : Vector2i) (b m : Int),
      es[i]? = some (PointerEvent.button p b false m) →
      ∃ s, (trace M st es)[i]? = some s ∧
        s.viewport_rotation_mode = false ∧ s.viewport_translation_mode = false) := by
  induction es generalizing st with
  | nil => simp [trace]
  | cons e es ih =>
    have h1 := handle_atMostOneMode M st e h
    obtain ⟨ihl, iha, ihr⟩ := ih (handle M st e) h1
    refine ⟨by simp [trace, ihl], ?_, ?_⟩
    · intro s hs
      simp only [trace, List.mem_cons] at hs
      rcases hs with rfl | hs
      · exact h1
      · exact iha s hs
    · intro i p b m hi
      cases i with
      | zero =>
        simp only [List.getElem?_cons_zero, Option.some.injEq] at hi
        subst hi
        exact ⟨handle M st (PointerEvent.button p b false m), by simp [trace],
          by simp [handle, mouseButtonEvent], by simp [handle, mouseButtonEvent]⟩
      | succ j =>
        simp only [List.getElem?_cons_succ] at hi
        simpa [trace] using ihr j p b m hi

/-- Witness of C2: a press of button `0`, a press of button `1`, a motion and a release,
from the constructor state over the rationals. -/
theorem mode_mutual_exclusion_witness :
    AtMostOneMode (CameraState.init (K := ℚ) ⟨0, 0, 0⟩ ⟨0, 0, 0⟩ ⟨0, 0⟩ true false) ∧
    (∀ s ∈ trace ratMath (CameraState.init ⟨0, 0, 0⟩ ⟨0, 0, 0⟩ ⟨0, 0⟩ true false)
        [PointerEvent.button ⟨1, 1⟩ 0 true 0, PointerEvent.button ⟨1, 1⟩ 1 true 0,
         PointerEvent.motion ⟨5, 2⟩ ⟨4, 1⟩ 0 0, PointerEvent.button ⟨5, 2⟩ 7 false 0],
      AtMostOneMode s) :=
  ⟨by simp [AtMostOneMode, CameraState.init],
   (mode_mutual_exclusion ratMath _ _ (by simp [AtMostOneMode, CameraState.init])).2.1⟩

/-- C3: in Rotating mode a motion event at cursor `p` sets component `1` (yaw) of the
orientation to baseline yaw plus a tenth of the horizontal cursor displacement and
component `2` (pitch) to baseline pitch plus a tenth of the vertical displacement;
roll, position, scale, the baseline and both mode flags are unchanged. -/
theorem mouseMotionEvent_rotating {K : Type} [LinearOrderedField K] (M : MathLib K)
    (st : CameraState K) (p rel : Vector2i) (button modifiers : Int)
    (h : st.viewport_rotation_mode = true) :
    (mouseMotionEvent M st p rel button modifiers).viewport_ryp.y
      = st.viewport_ryp_old.y + (1 / 10) * (((p.x - st.viewport_cursor_old.x : Int)) : K) ∧
    (mouseMotionEvent M st p rel button modifiers).viewport_ryp.z
      = st.viewport_ryp_old.z + (1 / 10) * (((p.y - st.viewport_cursor_old.y : Int)) : K) ∧
    (mouseMotionEvent M st p rel button modifiers).viewport_ryp.x = st.viewport_ryp.x ∧
    (mouseMotionEvent M st p rel button modifiers).viewport_xyz = st.viewport_xyz ∧
    (mouseMotionEvent M st p rel button modifiers).viewport_scale = st.viewport_scale ∧
    (mouseMotionEvent M st p rel button modifiers).viewport_ryp_old = st.viewport_ryp_old ∧
    (mouseMotionEvent M st p rel button modifiers).viewport_xyz_old = st.viewport_xyz_old ∧
    (mouseMotionEvent M st p rel button modifiers).viewport_cursor_old
      = st.viewport_cursor_old ∧
    (mouseMotionEvent M st p rel button modifiers).viewport_rotation_mode
      = st.viewport_rotation_mode ∧
    (mouseMotionEvent M st p rel button modifiers).viewport_translation_mode
      = st.viewport_translation_mode := by
  simp [mouseMotionEvent, dragDelta, h, mul_comm]

/-- Witness of C3: orientation `(0, -45, -42)`, baseline equal to it, and a cursor
displacement of `(10, 0)` give yaw `-44`, pitch `-42` and roll `0`. -/
theorem mouseMotionEvent_rotating_witness :
    (CameraState.init (K := ℚ) ⟨0, -45, -42⟩ ⟨-8, -8, 8⟩ ⟨3, 4⟩ true false).viewport_rotation_mode
      = true ∧
    (mouseMotionEvent ratMath
        (CameraState.init ⟨0, -45, -42⟩ ⟨-8, -8, 8⟩ ⟨3, 4⟩ true false)
        ⟨13, 4⟩ ⟨10, 0⟩ 0 0).viewport_ryp.y = -44 ∧
    (mouseMotionEvent ratMath
        (CameraState.init ⟨0, -45, -42⟩ ⟨-8, -8, 8⟩ ⟨3, 4⟩ true false)
        ⟨13, 4⟩ ⟨10, 0⟩ 0 0).viewport_ryp.z = -42 ∧
    (mouseMotionEvent ratMath
        (CameraState.init ⟨0, -45, -42⟩ ⟨-8, -8, 8⟩ ⟨3, 4⟩ true false)
        ⟨13, 4⟩ ⟨10, 0⟩ 0 0).viewport_ryp.x = 0 := by
  have h := mouseMotionEvent_rotating ratMath
    (CameraState.init (K := ℚ) ⟨0, -45, -42⟩ ⟨-8, -8, 8⟩ ⟨3, 4⟩ true false)
    ⟨13, 4⟩ ⟨10, 0⟩ 0 0 rfl
  refine ⟨rfl, ?_, ?_, ?_⟩
  · rw [h.1]; norm_num [CameraState.init]
  · rw [h.2.1]; norm_num [CameraState.init]
  · rw [h.2.2.1]; rfl

/-- The rotation built by `world_matrix` at orientation `(0, 0, 0)` is the identity,
for a math library with `cos 0 = 1` and `sin 0 = 0`. -/
theorem worldRotation_zero {K : Type} [LinearOrderedField K] (M : MathLib K)
    (hc : M.cos 0 = 1) (hs : M.sin 0 = 0) (st : CameraState K)
    (hz : st.viewport_ryp = ⟨0, 0, 0⟩) : worldRotation M st = 1 := by
  have hA : ∀ axis : Fin 3 → K, angleAxis M 0 axis = 1 := by
    intro axis
    simp [angleAxis, hc, hs, Matrix.one_fin_three]
  simp [worldRotation, hz, hA]

/-- The upper-left block of `view_matrix * world_matrix` at orientation `(0, 0, 0)`. -/
theorem block33_view_world_zero {K : Type} [LinearOrderedField K] (M : MathLib K)
    (hc : M.cos 0 = 1) (hs : M.sin 0 = 0) (st : CameraState K)
    (hz : st.viewport_ryp = ⟨0, 0, 0⟩) :
    block33 (view_matrix * world_matrix M st) = !![1, 0, 0; 0, 0, -1; 0, 1, 0] := by
  have hR := worldRotation_zero M hc hs st hz
  simp [block33, view_matrix, world_matrix, hR, Matrix.mul_apply, Fin.sum_univ_four,
    Matrix.one_fin_three, Matrix.vecHead, Matrix.vecTail]

/-- C4: in Translating mode with modifiers `0`, a motion event sets the position to
the baseline position minus the first two columns of `B` applied to `delta`, where `B`
is the transposed upper-left block of `view_matrix * world_matrix` and `delta` a tenth
of the cursor displacement; at orientation `(0, 0, 0)` the displacement of the position
mapped through that upper-left block is `(-delta.x, -delta.y, 0)`, so its Z component
is `0`. -/
theorem mouseMotionEvent_pan_zero_rotation {K : Type} [LinearOrderedField K]
    (M : MathLib K) (hc : M.cos 0 = 1) (hs : M.sin 0 = 0)
    (st : CameraState K) (p rel : Vector2i) (button : Int)
    (hrot : st.viewport_rotation_mode = false) (htr : st.viewport_translation_mode = true)
    (hz : st.viewport_ryp = ⟨0, 0, 0⟩) :
    (mouseMotionEvent M st p rel button 0).viewport_xyz.toFun
      = st.viewport_xyz_old.toFun
        - (block32 (block33 (view_matrix * world_matrix M st)).transpose).mulVec
            ![(1 / 10) * (((p.x - st.viewport_cursor_old.x : Int)) : K),
              (1 / 10) * (((p.y - st.viewport_cursor_old.y : Int)) : K)] ∧
    (block33 (view_matrix * world_matrix M st)).mulVec
        ((mouseMotionEvent M st p rel button 0).viewport_xyz.toFun
          - st.viewport_xyz_old.toFun)
      = ![-((1 / 10) * (((p.x - st.viewport_cursor_old.x : Int)) : K)),
          -((1 / 10) * (((p.y - st.viewport_cursor_old.y : Int)) : K)), 0] ∧
    ((block33 (view_matrix * world_matrix M st)).mulVec
        ((mouseMotionEvent M st p rel button 0).viewport_xyz.toFun
          - st.viewport_xyz_old.toFun)) 2 = 0 := by
  have hB := block33_view_world_zero M hc hs st hz
  have hpos : (mouseMotionEvent M st p rel button 0).viewport_xyz.toFun
      = st.viewport_xyz_old.toFun
        - (block32 (block33 (view_matrix * world_matrix M st)).transpose).mulVec
            ![(1 / 10) * (((p.x - st.viewport_cursor_old.x : Int)) : K),
              (1 / 10) * (((p.y - st.viewport_cursor_old.y : Int)) : K)] := by
    funext i
    fin_cases i <;>
      simp [mouseMotionEvent, hrot, htr, world_view_dcm, dragDelta, Vector3f.toFun,
        Vector3f.ofFun, mul_comm]
  have hmap : (block33 (view_matrix * world_matrix M st)).mulVec
        ((mouseMotionEvent M st p rel button 0).viewport_xyz.toFun
          - st.viewport_xyz_old.toFun)
      = ![-((1 / 10) * (((p.x - st.viewport_cursor_old.x : Int)) : K)),
          -((1 / 10) * (((p.y - st.viewport_cursor_old.y : Int)) : K)), 0] := by
    rw [hpos, hB]
    funext i
    fin_cases i <;>
      simp [block32, Vector3f.toFun, Matrix.vecHead, Matrix.vecTail, Matrix.mulVec,
        Matrix.dotProduct, Fin.sum_univ_succ]
  refine ⟨hpos, hmap, ?_⟩
  rw [hmap]
  rfl

/-- Witness of C4: zero orientation, baseline position `(-8, -8, 8)`, baseline cursor
`(3, 4)` and cursor `(13, 24)` over the rationals: the position becomes `(-9, -8, 10)`
and the mapped displacement has Z component `0`. -/
theorem mouseMotionEvent_pan_zero_rotation_witness :
    ratMath.cos 0 = 1 ∧ ratMath.sin 0 = 0 ∧
    (mouseMotionEvent ratMath
        ⟨⟨0, 0, 0⟩, ⟨-8, -8, 8⟩, 1, ⟨0, 0, 0⟩, ⟨-8, -8, 8⟩, ⟨3, 4⟩, false, true⟩
        ⟨13, 24⟩ ⟨10, 20⟩ 0 0).viewport_xyz = ⟨-9, -8, 10⟩ ∧
    ((block33 (view_matrix * world_matrix ratMath
          ⟨⟨0, 0, 0⟩, ⟨-8, -8, 8⟩, 1, ⟨0, 0, 0⟩, ⟨-8, -8, 8⟩, ⟨3, 4⟩, false, true⟩)).mulVec
        ((mouseMotionEvent ratMath
            ⟨⟨0, 0, 0⟩, ⟨-8, -8, 8⟩, 1, ⟨0, 0, 0⟩, ⟨-8, -8, 8⟩, ⟨3, 4⟩, false, true⟩
            ⟨13, 24⟩ ⟨10, 20⟩ 0 0).viewport_xyz.toFun
          - (⟨-8, -8, 8⟩ : Vector3f ℚ).toFun)) 2 = 0 := by
  have hc : ratMath.cos 0 = 1 := by norm_num [ratMath]
  have hs : ratMath.sin 0 = 0 := by norm_num [ratMath]
  have h := mouseMotionEvent_pan_zero_rotation ratMath hc hs
    ⟨⟨0, 0, 0⟩, ⟨-8, -8, 8⟩, 1, ⟨0, 0, 0⟩, ⟨-8, -8, 8⟩, ⟨3, 4⟩, false, true⟩
    ⟨13, 24⟩ ⟨10, 20⟩ 0 rfl rfl rfl
  refine ⟨hc, hs, ?_, h.2.2⟩
  have key : ∀ v : Vector3f ℚ, v.toFun = ![-9, -8, 10] → v = ⟨-9, -8, 10⟩ := by
    intro v hv
    obtain ⟨a, b, c⟩ := v
    have h0 := congrFun hv 0
    have h1 := congrFun hv 1
    have h2 := congrFun hv 2
    simp only [Vector3f.toFun, Matrix.cons_val_zero, Matrix.cons_val_one, Matrix.head_cons,
      Matrix.cons_val_two, Matrix.tail_cons] at h0 h1 h2
    rw [h0, h1, h2]
  apply key
  rw [h.1, block33_view_world_zero ratMath hc hs _ rfl]
  funext i
  fin_cases i <;>
    simp [block32, Vector3f.toFun, Matrix.vecHead, Matrix.vecTail, Matrix.mulVec,
      Matrix.dotProduct, Fin.sum_univ_succ] <;> norm_num

end CameraTheorems

section GraphTheorems

/-- After `n` iterations of the shifting loop the first `n` entries hold their right
neighbour and the rest are untouched. -/
theorem shiftLoop_steps {K : Type} [LinearOrderedField K] (f : List K) (n : Nat)
    (hn : n + 1 ≤ f.length) :
    ((List.range n).foldl (fun g k => g.set k (g.getD (k + 1) 0)) f).length = f.length ∧
    ∀ j, ((List.range n).foldl (fun g k => g.set k (g.getD (k + 1) 0)) f)[j]?
      = if j < n then f[j + 1]? else f[j]? := by
  induction n with
  | zero => simp
  | succ n ih =>
    obtain ⟨hl, hg⟩ := ih (by omega)
    rw [List.range_succ, List.foldl_append]
    simp only [List.foldl_cons, List.foldl_nil]
    refine ⟨by rw [List.length_set]; exact hl, ?_⟩
    intro j
    rw [List.getElem?_set, List.getD_eq_getElem?_getD, hg (n + 1), hl]
    by_cases hjn : n = j
    · subst hjn
      have h1 : n < f.length := by omega
      have h2 : n + 1 < f.length := by omega
      simp [h1, h2]
    · rw [if_neg hjn, hg j]
      by_cases h3 : j < n
      · have : j < n + 1 := by omega
        simp [h3, this]
      · have : ¬ j < n + 1 := by omega
        simp [h3, this]

/-- On a non-empty buffer, the shifting loop followed by the write of the last entry
drops the oldest sample and appends the new one. -/
theorem shift_then_set {K : Type} [LinearOrderedField K] (f : List K) (x : K)
    (hf : f ≠ []) :
    (shiftLoop f).set ((shiftLoop f).length - 1) x = f.tail ++ [x] := by
  have hpos : 0 < f.length := List.length_pos.mpr hf
  obtain ⟨hl, hg⟩ := shiftLoop_steps f (f.length - 1) (by omega)
  apply List.ext_getElem?
  intro j
  unfold shiftLoop
  rw [List.getElem?_set, hl, hg j, List.getElem?_append]
  simp only [List.length_tail, List.getElem?_tail]
  by_cases h1 : f.length - 1 = j
  · subst h1
    simp [hpos]
  · rw [if_neg h1]
    by_cases h2 : j < f.length - 1
    · simp [h2]
    · have h4 : f.length ≤ j := by omega
      have h5 : j - (f.length - 1) ≠ 0 := by omega
      rw [if_neg h2, if_neg h2, List.getElem?_eq_none h4, List.getElem?_eq_none]
      simp only [List.length_singleton]
      omega
/-- One run of the scalar refresh closure on a non-empty buffer. -/
theorem scalarSubscriber_values {K : Type} [LinearOrderedField K]
    (max_value min_value value : K) (g : Graph K) (hg : g.values ≠ []) :
    (scalarSubscriber max_value min_value value g).values
      = g.values.tail ++ [normalized max_value min_value value] := by
  simp only [scalarSubscriber]
  exact shift_then_set g.values _ hg

/-- The buffer after a run of refreshes: the old buffer followed by the normalised
values read, with as many entries dropped from the front as values were read. -/
theorem scalarRefreshes_values {K : Type} [LinearOrderedField K]
    (max_value min_value : K) (vs : List K) (g : Graph K) (hg : g.values ≠ []) :
    (scalarRefreshes max_value min_value g vs).values
      = (g.values ++ vs.map (normalized max_value min_value)).drop vs.length := by
  induction vs generalizing g with
  | nil => simp [scalarRefreshes]
  | cons v vs ih =>
    have h1 := scalarSubscriber_values max_value min_value v g hg
    have h2 : (scalarSubscriber max_value min_value v g).values ≠ [] := by
      rw [h1]; simp
    have h3 := ih (scalarSubscriber max_value min_value v g) h2
    simp only [scalarRefreshes, List.foldl_cons] at h3 ⊢
    rw [h3, h1]
    obtain ⟨a, t, hat⟩ := List.exists_cons_of_ne_nil hg
    rw [hat]
    simp

/-- C5: for a graph whose buffer has 60 entries and refreshes reading `vs` in turn
(bounds with `max_value ≠ min_value`), the buffer has 60 entries after every refresh,
its entry 59 after refresh `i + 1` is the normalised value `vs[i]`, and once at least 60
values were read the buffer is the normalised last 60 values in order. -/
theorem scalar_graph_ring_buffer {K : Type} [LinearOrderedField K]
    (max_value min_value : K) (_hne : max_value ≠ min_value) (g : Graph K)
    (hg : g.values.length = 60) (vs : List K) :
    (∀ i, i ≤ vs.length →
      (scalarRefreshes max_value min_value g (vs.take i)).values.length = 60) ∧
    (∀ (i : Nat) (hi : i < vs.length),
      (scalarRefreshes max_value min_value g (vs.take (i + 1))).values[59]?
        = some (normalized max_value min_value vs[i])) ∧
    (60 ≤ vs.length →
      (scalarRefreshes max_value min_value g vs).values
        = (vs.drop (vs.length - 60)).map (normalized max_value min_value)) := by
  have hne : g.values ≠ [] := by
    intro h; rw [h] at hg; simp at hg
  refine ⟨?_, ?_, ?_⟩
  · intro i hi
    rw [scalarRefreshes_values _ _ _ _ hne]
    simp [hg]
  · intro i hi
    rw [scalarRefreshes_values _ _ _ _ hne]
    have hlen : (List.take (i + 1) vs).length = i + 1 := by
      rw [List.length_take]; omega
    rw [hlen, List.getElem?_drop, List.getElem?_append_right (by omega)]
    have : i + 1 + 59 - g.values.length = i := by omega
    rw [this, List.getElem?_map, List.getElem?_take, if_pos (by omega),
      List.getElem?_eq_getElem hi]
    rfl
  · intro hN
    rw [scalarRefreshes_values _ _ _ _ hne, List.drop_append_eq_append_drop,
      List.drop_eq_nil_of_le (by omega), hg, List.map_drop]
    simp
/-- The graph that the scalar `add_graph` builds has a buffer of 60 entries. -/
theorem add_graph_scalar_length {K : Type} [LinearOrderedField K]
    (max_value min_value value : K) :
    (add_graph_scalar max_value min_value value).values.length = 60 := by
  unfold add_graph_scalar
  rw [scalarSubscriber_values _ _ _ _ (by simp)]
  simp

/-- Witness of C5: bounds `10` and `0`, the graph built by `add_graph` at value `1`, then
refreshes reading `2, 3, 4`: the last entry after the third refresh is `4 / 10`. -/
theorem scalar_graph_ring_buffer_witness :
    (10 : ℚ) ≠ 0 ∧ (add_graph_scalar (10 : ℚ) 0 1).values.length = 60 ∧
    (scalarRefreshes 10 0 (add_graph_scalar (10 : ℚ) 0 1) [2, 3, 4]).values.length = 60 ∧
    (scalarRefreshes 10 0 (add_graph_scalar (10 : ℚ) 0 1) [2, 3, 4]).values[59]?
      = some (2 / 5) := by
  have h := scalar_graph_ring_buffer (10 : ℚ) 0 (by norm_num)
    (add_graph_scalar (10 : ℚ) 0 1) (add_graph_scalar_length _ _ _) [2, 3, 4]
  refine ⟨by norm_num, add_graph_scalar_length _ _ _, h.1 3 (by decide), ?_⟩
  have h2 := h.2.1 2 (by decide)
  simp only [List.take] at h2
  rw [h2]
  norm_num [normalized]

/-- The function `std::max` is the maximum of the order. -/
theorem stdMax_eq_max {K : Type} [LinearOrderedField K] (a b : K) : stdMax a b = max a b := by
  unfold stdMax
  split_ifs with h
  · exact (max_eq_right h.le).symm
  · exact (max_eq_left (not_lt.mp h)).symm

/-- The function `std::min` is the minimum of the order. -/
theorem stdMin_eq_min {K : Type} [LinearOrderedField K] (a b : K) : stdMin a b = min a b := by
  unfold stdMin
  split_ifs with h
  · exact (min_eq_right h.le).symm
  · exact (min_eq_left (not_lt.mp h)).symm

/-- The scanning loop of the vector graph computes a running maximum and a running
minimum. -/
theorem foldl_bounds_eq {K : Type} [LinearOrderedField K] (values : List K) (a b : K) :
    values.foldl (fun p v => (stdMax p.1 v, stdMin p.2 v)) (a, b)
      = (values.foldl max a, values.foldl min b) := by
  induction values generalizing a b with
  | nil => rfl
  | cons v t ih =>
    rw [List.foldl_cons, ih, List.foldl_cons, List.foldl_cons, stdMax_eq_max, stdMin_eq_min]

/-- A running maximum started above every element stays where it started. -/
theorem foldl_max_of_le {K : Type} [LinearOrderedField K] (l : List K) (a : K)
    (h : ∀ v ∈ l, v ≤ a) : l.foldl max a = a := by
  induction l generalizing a with
  | nil => rfl
  | cons v t ih =>
    have hv : v ≤ a := h v (List.mem_cons_self v t)
    rw [List.foldl_cons, max_eq_left hv]
    exact ih a (fun w hw => h w (List.mem_cons_of_mem v hw))

/-- A running maximum started at or below the largest element ends at the largest
element. -/
theorem foldl_max_eq {K : Type} [LinearOrderedField K] (l : List K) (a hi : K)
    (hmem : hi ∈ l) (hub : ∀ v ∈ l, v ≤ hi) (ha : a ≤ hi) : l.foldl max a = hi := by
  induction l generalizing a with
  | nil => simp at hmem
  | cons v t ih =>
    have hv : v ≤ hi := hub v (List.mem_cons_self v t)
    have ht : ∀ w ∈ t, w ≤ hi := fun w hw => hub w (List.mem_cons_of_mem v hw)
    rw [List.foldl_cons]
    rcases List.mem_cons.mp hmem with rfl | hin
    · rw [max_eq_right ha]
      exact foldl_max_of_le t hi ht
    · exact ih (max a v) hin ht (max_le ha hv)

/-- A running minimum started below every element stays where it started. -/
theorem foldl_min_of_le {K : Type} [LinearOrderedField K] (l : List K) (b : K)
    (h : ∀ v ∈ l, b ≤ v) : l.foldl min b = b := by
  induction l generalizing b with
  | nil => rfl
  | cons v t ih =>
    have hv : b ≤ v := h v (List.mem_cons_self v t)
    rw [List.foldl_cons, min_eq_left hv]
    exact ih b (fun w hw => h w (List.mem_cons_of_mem v hw))

/-- A running minimum started at or above the smallest element ends at the smallest
element. -/
theorem foldl_min_eq {K : Type} [LinearOrderedField K] (l : List K) (b lo : K)
    (hmem : lo ∈ l) (hlb : ∀ v ∈ l, lo ≤ v) (hb : lo ≤ b) : l.foldl min b = lo := by
  induction l generalizing b with
  | nil => simp at hmem
  | cons v t ih =>
    have hv : lo ≤ v := hlb v (List.mem_cons_self v t)
    have ht : ∀ w ∈ t, lo ≤ w := fun w hw => hlb w (List.mem_cons_of_mem v hw)
    rw [List.foldl_cons]
    rcases List.mem_cons.mp hmem with rfl | hin
    · rw [min_eq_right hb]
      exact foldl_min_of_le t lo ht
    · exact ih (min b v) hin ht (le_min hb hv)

/-- Machine epsilon is positive. -/
theorem dblEpsilon_pos {K : Type} [LinearOrderedField K] : (0 : K) < dblEpsilon := by
  unfold dblEpsilon
  positivity

/-- C6: with caller bounds `max_value ≤ min_value`, a sequence of finite doubles whose
smallest element is `lo` and largest `hi`, and spread `hi - lo` at least machine
epsilon, the vector refresh closure computes the bounds `(hi, lo)`, divides by
`hi - lo`, and writes an output of the same length with entries
`(values[i] - lo) / (hi - lo)`. -/
theorem vector_graph_bound_fallback {K : Type} [LinearOrderedField K]
    (max_value min_value : K) (values : List K) (g : Graph K) (lo hi : K)
    (hb : max_value ≤ min_value)
    (hlo : lo ∈ values) (hlb : ∀ v ∈ values, lo ≤ v)
    (hhi : hi ∈ values) (hub : ∀ v ∈ values, v ≤ hi)
    (hfin : ∀ v ∈ values, -dblMax ≤ v ∧ v ≤ dblMax)
    (hspread : dblEpsilon ≤ hi - lo) :
    computedBounds max_value min_value values = (hi, lo) ∧
    divisor max_value min_value values = hi - lo ∧
    (vectorSubscriber max_value min_value values g).values.length = values.length ∧
    (vectorSubscriber max_value min_value values g).values
      = values.map (fun v => (v - lo) / (hi - lo)) := by
  have hB : computedBounds max_value min_value values = (hi, lo) := by
    unfold computedBounds
    rw [if_pos hb, foldl_bounds_eq,
      foldl_max_eq values _ hi hhi hub (hfin hi hhi).1,
      foldl_min_eq values _ lo hlo hlb (hfin lo hlo).2]
  have hD : divisor max_value min_value values = hi - lo := by
    simp only [divisor, hB, stdMax_eq_max]
    exact max_eq_left hspread
  refine ⟨hB, hD, by simp [vectorSubscriber], ?_⟩
  simp only [vectorSubscriber, hB, hD]

/-- Witness of C6: caller bounds `0, 0` and data `[1, 3, 2]` give the bounds `max = 3`,
`min = 1` and the output `[0, 1, 1 / 2]`. -/
theorem vector_graph_bound_fallback_witness :
    (0 : ℚ) ≤ 0 ∧ (dblEpsilon : ℚ) ≤ 3 - 1 ∧
    computedBounds (0 : ℚ) 0 [1, 3, 2] = (3, 1) ∧
    (vectorSubscriber (0 : ℚ) 0 [1, 3, 2] ⟨[], none⟩).values = [0, 1, 1 / 2] := by
  have hsp : (dblEpsilon : ℚ) ≤ 3 - 1 := by norm_num [dblEpsilon]
  have h := vector_graph_bound_fallback (0 : ℚ) 0 [1, 3, 2] ⟨[], none⟩ 1 3 le_rfl
    (by simp) (by intro v hv; simp at hv; rcases hv with rfl | rfl | rfl <;> norm_num)
    (by simp) (by intro v hv; simp at hv; rcases hv with rfl | rfl | rfl <;> norm_num)
    (by intro v hv; simp at hv; rcases hv with rfl | rfl | rfl <;> norm_num [dblMax])
    hsp
  refine ⟨le_rfl, hsp, h.1, ?_⟩
  rw [h.2.2.2]
  norm_num

/-- In exact arithmetic over an ordered field: the divisor of the vector refresh closure
is at least machine epsilon, hence not zero; and a constant sequence of any length `n`
with element at most `dblMax` and `max_value ≤ min_value` gives `n` entries `0`. -/
theorem vector_graph_degenerate_exact {K : Type} [LinearOrderedField K]
    (max_value min_value : K) (g : Graph K) :
    (∀ values : List K, dblEpsilon ≤ divisor max_value min_value values ∧
      divisor max_value min_value values ≠ 0) ∧
    (∀ (n : Nat) (c : K), max_value ≤ min_value → c ≤ dblMax →
      (vectorSubscriber max_value min_value (List.replicate n c) g).values
        = List.replicate n 0) := by
  constructor
  · intro values
    have h : dblEpsilon ≤ divisor max_value min_value values := by
      simp only [divisor, stdMax_eq_max]
      exact le_max_right _ _
    exact ⟨h, ne_of_gt (lt_of_lt_of_le dblEpsilon_pos h)⟩
  · intro n c hb hc
    cases n with
    | zero => simp [vectorSubscriber]
    | succ n =>
      have hmin : (computedBounds max_value min_value (List.replicate (n + 1) c)).2 = c := by
        unfold computedBounds
        rw [if_pos hb, foldl_bounds_eq]
        exact foldl_min_eq _ _ c (by simp) (by intro v hv; rw [List.eq_of_mem_replicate hv]) hc
      simp only [vectorSubscriber, hmin]
      simp

/-- The exact-arithmetic statement at caller bounds `0, 0` and data `[5, 5, 5]`: the
divisor is not zero and the output is `[0, 0, 0]`. -/
theorem vector_graph_degenerate_exact_instance :
    (0 : ℚ) ≤ 0 ∧ (5 : ℚ) ≤ dblMax ∧
    divisor (0 : ℚ) 0 [5, 5, 5] ≠ 0 ∧
    (vectorSubscriber (0 : ℚ) 0 [5, 5, 5] ⟨[], none⟩).values = [0, 0, 0] := by
  have h5 : (5 : ℚ) ≤ dblMax := by norm_num [dblMax]
  have h := vector_graph_degenerate_exact (0 : ℚ) 0 ⟨[], none⟩
  exact ⟨le_rfl, h5, (h.1 [5, 5, 5]).2, h.2 3 5 le_rfl h5⟩

end GraphTheorems

section DoubleTheorems

/-- A running maximum that is neither NaN nor minus infinity stays so. -/
theorem stdMaxD_upper (a v : Dbl) (h1 : a ≠ Dbl.nan) (h2 : a ≠ Dbl.negInf) :
    stdMaxD a v ≠ Dbl.nan ∧ stdMaxD a v ≠ Dbl.negInf := by
  cases a <;> cases v <;> simp_all [stdMaxD, Dbl.lt]
  all_goals (split_ifs <;> simp)

/-- A running minimum that is neither NaN nor plus infinity stays so. -/
theorem stdMinD_lower (b v : Dbl) (h1 : b ≠ Dbl.nan) (h2 : b ≠ Dbl.posInf) :
    stdMinD b v ≠ Dbl.nan ∧ stdMinD b v ≠ Dbl.posInf := by
  cases b <;> cases v <;> simp_all [stdMinD, Dbl.lt]
  all_goals (split_ifs <;> simp)

/-- The scan of the sequence ends with a maximum that is neither NaN nor minus infinity
and a minimum that is neither NaN nor plus infinity, whatever the elements. -/
theorem scan_shape (values : List Dbl) (a b : Dbl)
    (ha1 : a ≠ Dbl.nan) (ha2 : a ≠ Dbl.negInf) (hb1 : b ≠ Dbl.nan) (hb2 : b ≠ Dbl.posInf) :
    ((values.foldl (fun p v => (stdMaxD p.1 v, stdMinD p.2 v)) (a, b)).1 ≠ Dbl.nan ∧
      (values.foldl (fun p v => (stdMaxD p.1 v, stdMinD p.2 v)) (a, b)).1 ≠ Dbl.negInf) ∧
    ((values.foldl (fun p v => (stdMaxD p.1 v, stdMinD p.2 v)) (a, b)).2 ≠ Dbl.nan ∧
      (values.foldl (fun p v => (stdMaxD p.1 v, stdMinD p.2 v)) (a, b)).2 ≠ Dbl.posInf) := by
  induction values generalizing a b with
  | nil => exact ⟨⟨ha1, ha2⟩, hb1, hb2⟩
  | cons v t ih =>
    rw [List.foldl_cons]
    exact ih _ _ (stdMaxD_upper a v ha1 ha2).1 (stdMaxD_upper a v ha1 ha2).2
      (stdMinD_lower b v hb1 hb2).1 (stdMinD_lower b v hb1 hb2).2

/-- The difference of such a maximum and minimum is not NaN. -/
theorem sub_ne_nan_of_shape (x y : Dbl) (hx1 : x ≠ Dbl.nan) (hx2 : x ≠ Dbl.negInf)
    (hy1 : y ≠ Dbl.nan) (hy2 : y ≠ Dbl.posInf) : Dbl.sub x y ≠ Dbl.nan := by
  cases x <;> cases y <;> simp_all [Dbl.sub]

/-- The difference of caller bounds that are not NaN and not ordered `max <= min` is not
NaN. -/
theorem sub_ne_nan_of_not_le (x y : Dbl) (hx : x ≠ Dbl.nan) (hy : y ≠ Dbl.nan)
    (h : Dbl.le x y = false) : Dbl.sub x y ≠ Dbl.nan := by
  cases x <;> cases y <;> simp_all [Dbl.sub, Dbl.le]

/-- Flooring a double that is not NaN at machine epsilon gives at least machine epsilon,
so not zero. -/
theorem floor_epsilon (x : Dbl) (hx : x ≠ Dbl.nan) :
    Dbl.le (Dbl.fin dblEpsilon) (stdMaxD x (Dbl.fin dblEpsilon)) = true ∧
    stdMaxD x (Dbl.fin dblEpsilon) ≠ Dbl.fin 0 := by
  have hpos : (0 : ℚ) < dblEpsilon := dblEpsilon_pos
  cases x with
  | nan => exact absurd rfl hx
  | negInf => simp [stdMaxD, Dbl.lt, Dbl.le, ne_of_gt hpos]
  | posInf => simp [stdMaxD, Dbl.lt, Dbl.le]
  | fin d =>
    by_cases h : d < dblEpsilon
    · simp [stdMaxD, Dbl.lt, Dbl.le, h, ne_of_gt hpos]
    · have h2 : dblEpsilon ≤ d := not_lt.mp h
      have h3 : d ≠ 0 := ne_of_gt (lt_of_lt_of_le hpos h2)
      simp [stdMaxD, Dbl.lt, Dbl.le, h, h2, h3]

/-- The divisor is not NaN when the caller bounds are not NaN. -/
theorem divisorD_arg_ne_nan (max_value min_value : Dbl) (values : List Dbl)
    (h1 : max_value ≠ Dbl.nan) (h2 : min_value ≠ Dbl.nan) :
    Dbl.sub (computedBoundsD max_value min_value values).1
      (computedBoundsD max_value min_value values).2 ≠ Dbl.nan := by
  unfold computedBoundsD
  cases h : Dbl.le max_value min_value with
  | true =>
    simp only [if_true]
    have hs := scan_shape values (Dbl.fin (-dblMax)) (Dbl.fin dblMax)
      (by simp) (by simp) (by simp) (by simp)
    exact sub_ne_nan_of_shape _ _ hs.1.1 hs.1.2 hs.2.1 hs.2.2
  | false =>
    simp only [Bool.false_eq_true, if_false]
    exact sub_ne_nan_of_not_le _ _ h1 h2 h

/-- Caller bounds ordered `max <= min` are not NaN. -/
theorem ne_nan_of_le (x y : Dbl) (h : Dbl.le x y = true) : x ≠ Dbl.nan ∧ y ≠ Dbl.nan := by
  cases x <;> cases y <;> simp_all [Dbl.le]

/-- The minimum of a finite running minimum and a finite element below it. -/
theorem stdMinD_fin (m c : ℚ) (h : c ≤ m) : stdMinD (Dbl.fin m) (Dbl.fin c) = Dbl.fin c := by
  by_cases h2 : c < m
  · simp [stdMinD, Dbl.lt, h2]
  · have h3 : m = c := le_antisymm (not_lt.mp h2) h
    simp [stdMinD, Dbl.lt, h3]

/-- The scan of a non-empty constant sequence of a finite value ends with that value as
minimum, when the scan starts at or above it. -/
theorem scan_replicate_min (n : Nat) (a : Dbl) (m c : ℚ) (h : c ≤ m) :
    ((List.replicate (n + 1) (Dbl.fin c)).foldl
        (fun p v => (stdMaxD p.1 v, stdMinD p.2 v)) (a, Dbl.fin m)).2 = Dbl.fin c := by
  induction n generalizing a m with
  | zero => simp [List.replicate, stdMinD_fin m c h]
  | succ n ih =>
    rw [List.replicate_succ, List.foldl_cons]
    simp only [stdMinD_fin m c h]
    exact ih _ c le_rfl

/-- Zero divided by a divisor that is at least machine epsilon is zero. -/
theorem div_zero_of_floor (d : Dbl) (h : Dbl.le (Dbl.fin dblEpsilon) d = true) :
    Dbl.div (Dbl.fin 0) d = Dbl.fin 0 := by
  have hpos : (0 : ℚ) < dblEpsilon := dblEpsilon_pos
  cases d with
  | nan => simp [Dbl.le] at h
  | negInf => simp [Dbl.le] at h
  | posInf => simp [Dbl.div]
  | fin q =>
    have h2 : dblEpsilon ≤ q := by simpa [Dbl.le] using h
    have h3 : q ≠ 0 := ne_of_gt (lt_of_lt_of_le hpos h2)
    simp [Dbl.div, h3]

/-- C7 as stated fails: with caller bounds `0, 0` the constant sequence
`[inf, inf, inf]` gives the output `[NaN, NaN, NaN]`, not `[0, 0, 0]`; and with a caller
bound `max_value = NaN` the divisor is NaN, which is not at least machine epsilon. -/
theorem vector_graph_degenerate_counterexample :
    ((vectorSubscriberD (Dbl.fin 0) (Dbl.fin 0) [Dbl.posInf, Dbl.posInf, Dbl.posInf]
        ⟨[], none⟩).values = [Dbl.nan, Dbl.nan, Dbl.nan] ∧
      (vectorSubscriberD (Dbl.fin 0) (Dbl.fin 0) [Dbl.posInf, Dbl.posInf, Dbl.posInf]
        ⟨[], none⟩).values ≠ [Dbl.fin 0, Dbl.fin 0, Dbl.fin 0]) ∧
    (divisorD Dbl.nan (Dbl.fin 0) [Dbl.fin 5, Dbl.fin 5, Dbl.fin 5] = Dbl.nan ∧
      Dbl.le (Dbl.fin dblEpsilon)
        (divisorD Dbl.nan (Dbl.fin 0) [Dbl.fin 5, Dbl.fin 5, Dbl.fin 5]) = false) := by
  have h1 : (vectorSubscriberD (Dbl.fin 0) (Dbl.fin 0) [Dbl.posInf, Dbl.posInf, Dbl.posInf]
      ⟨[], none⟩).values = [Dbl.nan, Dbl.nan, Dbl.nan] := by
    simp [vectorSubscriberD, divisorD, computedBoundsD, stdMaxD, stdMinD, Dbl.lt, Dbl.le,
      Dbl.sub, Dbl.div]
  have h2 : divisorD Dbl.nan (Dbl.fin 0) [Dbl.fin 5, Dbl.fin 5, Dbl.fin 5] = Dbl.nan := by
    simp [divisorD, computedBoundsD, stdMaxD, Dbl.lt, Dbl.le, Dbl.sub]
  refine ⟨⟨h1, ?_⟩, h2, ?_⟩
  · rw [h1]
    simp
  · rw [h2]
    rfl

/-- C7 amended: for every sequence of doubles and all caller bounds that are not NaN,
the divisor of the vector refresh closure is at least machine epsilon and so not zero;
and for every constant sequence of a finite double (any length `n`) with
`max_value <= min_value` the output has length `n` and every entry is `0`. -/
theorem vector_graph_degenerate_doubles (max_value min_value : Dbl) (g : Graph Dbl) :
    (∀ values : List Dbl, max_value ≠ Dbl.nan → min_value ≠ Dbl.nan →
      Dbl.le (Dbl.fin dblEpsilon) (divisorD max_value min_value values) = true ∧
      divisorD max_value min_value values ≠ Dbl.fin 0) ∧
    (∀ (n : Nat) (c : ℚ), Dbl.le max_value min_value = true → c ≤ dblMax →
      (vectorSubscriberD max_value min_value (List.replicate n (Dbl.fin c)) g).values
        = List.replicate n (Dbl.fin 0)) := by
  have hdiv : ∀ values : List Dbl, max_value ≠ Dbl.nan → min_value ≠ Dbl.nan →
      Dbl.le (Dbl.fin dblEpsilon) (divisorD max_value min_value values) = true ∧
      divisorD max_value min_value values ≠ Dbl.fin 0 := by
    intro values h1 h2
    exact floor_epsilon _ (divisorD_arg_ne_nan max_value min_value values h1 h2)
  refine ⟨hdiv, ?_⟩
  intro n c hle hc
  cases n with
  | zero => simp [vectorSubscriberD]
  | succ n =>
    obtain ⟨hn1, hn2⟩ := ne_nan_of_le _ _ hle
    have hd := (hdiv (List.replicate (n + 1) (Dbl.fin c)) hn1 hn2).1
    have hmin : (computedBoundsD max_value min_value
        (List.replicate (n + 1) (Dbl.fin c))).2 = Dbl.fin c := by
      unfold computedBoundsD
      rw [if_pos hle]
      exact scan_replicate_min n _ dblMax c hc
    simp only [vectorSubscriberD, hmin, List.map_replicate]
    have hsub : Dbl.sub (Dbl.fin c) (Dbl.fin c) = Dbl.fin 0 := by simp [Dbl.sub]
    rw [hsub, div_zero_of_floor _ hd]

/-- Witness of C7 amended: caller bounds `0, 0` and data `[5, 5, 5]` give a divisor of
at least machine epsilon and the output `[0, 0, 0]`. -/
theorem vector_graph_degenerate_doubles_witness :
    Dbl.le (Dbl.fin 0) (Dbl.fin 0) = true ∧ (5 : ℚ) ≤ dblMax ∧
    Dbl.le (Dbl.fin dblEpsilon)
      (divisorD (Dbl.fin 0) (Dbl.fin 0) [Dbl.fin 5, Dbl.fin 5, Dbl.fin 5]) = true ∧
    (vectorSubscriberD (Dbl.fin 0) (Dbl.fin 0) [Dbl.fin 5, Dbl.fin 5, Dbl.fin 5]
      ⟨[], none⟩).values = [Dbl.fin 0, Dbl.fin 0, Dbl.fin 0] := by
  have h5 : (5 : ℚ) ≤ dblMax := by norm_num [dblMax]
  have hle : Dbl.le (Dbl.fin 0) (Dbl.fin 0) = true := by simp [Dbl.le]
  have h := vector_graph_degenerate_doubles (Dbl.fin 0) (Dbl.fin 0) ⟨[], none⟩
  exact ⟨hle, h5,
    (h.1 [Dbl.fin 5, Dbl.fin 5, Dbl.fin 5] (by simp) (by simp)).1,
    h.2 3 5 hle h5⟩

end DoubleTheorems

section ToggleTheorems

/-- C8: the refresh closure of the bound toggle calls `setPushed` (once, with the
external value) exactly when the pushed state differs from the external value and makes
no call when they are equal; afterwards the pushed state equals the external value, and
a second refresh with the value unchanged changes nothing and makes no further call. -/
theorem toggleSubscriber_noop (value : Bool) (b : Button) :
    (toggleSubscriber value b).setPushedCalls
      = (if b.pushed = value then b.setPushedCalls else b.setPushedCalls ++ [value]) ∧
    (toggleSubscriber value b).pushed = value ∧
    toggleSubscriber value (toggleSubscriber value b) = toggleSubscriber value b ∧
    (toggleSubscriber value (toggleSubscriber value b)).setPushedCalls
      = (toggleSubscriber value b).setPushedCalls := by
  obtain ⟨pushed, calls⟩ := b
  cases pushed <;> cases value <;> simp [toggleSubscriber, Button.setPushed]

/-- C9: the change callback of the bound toggle, given `new_value`: when it equals the
external value nothing changes and nothing is called; when it differs the external
value becomes `new_value`, `notify` is called once and then the user callback once if it
is non-empty (not at all if it is empty).  Delivering the same value a second time
changes nothing and calls nothing. -/
theorem toggleChangeCallback_writeback (callback : Bool) (w : ToggleWorld)
    (new_value : Bool) :
    toggleChangeCallback callback w new_value
      = (if new_value = w.value then w
         else ⟨new_value, w.calls ++ ToggleCall.notify new_value ::
                (if callback = true then [ToggleCall.callback new_value] else [])⟩) ∧
    toggleChangeCallback callback (toggleChangeCallback callback w new_value) new_value
      = toggleChangeCallback callback w new_value := by
  obtain ⟨value, calls⟩ := w
  cases value <;> cases new_value <;> cases callback <;> simp [toggleChangeCallback]

end ToggleTheorems

section RegistryTheorems

/-- Membership in a mapping with distinct keys after `m[k] = v`. -/
theorem assign_mem_iff {V : Type} (k : Nat) (v : V) (l : OrderedMap V)
    (hl : keysDistinct l) (x : Nat × V) :
    x ∈ OrderedMap.assign k v l ↔ x = (k, v) ∨ (x ∈ l ∧ x.1 ≠ k) := by
  induction l with
  | nil => simp [OrderedMap.assign]
  | cons a rest ih =>
    obtain ⟨k1, v1⟩ := a
    have hrest : keysDistinct rest := (List.pairwise_cons.mp hl).2
    have hhead : ∀ y ∈ rest, k1 ≠ y.1 := (List.pairwise_cons.mp hl).1
    unfold OrderedMap.assign
    split_ifs with h2
    · subst h2
      constructor
      · intro hx
        rcases List.mem_cons.mp hx with rfl | hx
        · exact Or.inl rfl
        · right
          exact ⟨List.mem_cons_of_mem _ hx, fun h => hhead x hx h.symm⟩
      · rintro (rfl | ⟨hx, hne⟩)
        · exact List.mem_cons_self _ _
        · rcases List.mem_cons.mp hx with rfl | hx2
          · exact absurd rfl hne
          · exact List.mem_cons_of_mem _ hx2
    · rw [List.mem_cons, ih hrest, List.mem_cons]
      constructor
      · rintro (rfl | rfl | ⟨hx, hne⟩)
        · exact Or.inr ⟨Or.inl rfl, fun h => h2 h.symm⟩
        · exact Or.inl rfl
        · exact Or.inr ⟨Or.inr hx, hne⟩
      · rintro (rfl | ⟨rfl | hx, hne⟩)
        · exact Or.inr (Or.inl rfl)
        · exact Or.inl rfl
        · exact Or.inr (Or.inr ⟨hx, hne⟩)

/-- The statement `m[k] = v` keeps the keys pairwise distinct. -/
theorem assign_keysDistinct {V : Type} (k : Nat) (v : V) (l : OrderedMap V)
    (hl : keysDistinct l) : keysDistinct (OrderedMap.assign k v l) := by
  induction l with
  | nil => simp [OrderedMap.assign, keysDistinct]
  | cons a rest ih =>
    obtain ⟨k1, v1⟩ := a
    have hrest : keysDistinct rest := (List.pairwise_cons.mp hl).2
    have hhead : ∀ y ∈ rest, k1 ≠ y.1 := (List.pairwise_cons.mp hl).1
    unfold OrderedMap.assign
    split_ifs with h2
    · subst h2
      exact List.pairwise_cons.mpr ⟨hhead, hrest⟩
    · refine List.pairwise_cons.mpr ⟨?_, ih hrest⟩
      intro y hy
      rcases (assign_mem_iff k v rest hrest y).mp hy with rfl | ⟨hy2, _⟩
      · exact fun h => h2 h.symm
      · exact hhead y hy2

/-- A key that is not yet present is appended by `m[k] = v`. -/
theorem assign_append {V : Type} (k : Nat) (v : V) (l : OrderedMap V)
    (hk : ∀ x ∈ l, x.1 ≠ k) : OrderedMap.assign k v l = l ++ [(k, v)] := by
  induction l with
  | nil => rfl
  | cons a rest ih =>
    obtain ⟨k1, v1⟩ := a
    have h1 : ¬ k = k1 := fun h => hk (k1, v1) (List.mem_cons_self _ _) h.symm
    unfold OrderedMap.assign
    rw [if_neg h1, ih (fun x hx => hk x (List.mem_cons_of_mem _ hx))]
    rfl

/-- Lookup in a mapping with distinct keys finds exactly its entries. -/
theorem find_eq_some_iff {V : Type} (k : Nat) (v : V) (l : OrderedMap V)
    (hl : keysDistinct l) : OrderedMap.find k l = some v ↔ (k, v) ∈ l := by
  induction l with
  | nil => simp [OrderedMap.find]
  | cons a rest ih =>
    obtain ⟨k1, v1⟩ := a
    have hrest : keysDistinct rest := (List.pairwise_cons.mp hl).2
    have hhead : ∀ y ∈ rest, k1 ≠ y.1 := (List.pairwise_cons.mp hl).1
    unfold OrderedMap.find
    split_ifs with h1
    · subst h1
      constructor
      · intro h
        rw [Option.some.injEq] at h
        subst h
        exact List.mem_cons_self _ _
      · intro h
        rcases List.mem_cons.mp h with h | h
        · rw [Prod.mk.injEq] at h
          rw [h.2]
        · exact absurd rfl (hhead _ h)
    · rw [ih hrest, List.mem_cons]
      constructor
      · exact Or.inr
      · rintro (h | h)
        · rw [Prod.mk.injEq] at h
          exact absurd h.1 h1
        · exact h

/-- Lookup fails exactly on the keys that are absent. -/
theorem find_eq_none_iff {V : Type} (k : Nat) (l : OrderedMap V) :
    OrderedMap.find k l = none ↔ ∀ x ∈ l, x.1 ≠ k := by
  induction l with
  | nil => simp [OrderedMap.find]
  | cons a rest ih =>
    obtain ⟨k1, v1⟩ := a
    unfold OrderedMap.find
    split_ifs with h1
    · subst h1
      simp
    · rw [ih]
      simp only [List.mem_cons, forall_eq_or_imp]
      constructor
      · intro h
        exact ⟨fun h2 => h1 h2.symm, h⟩
      · intro h
        exact h.2

/-- The inner mapping that `operator[]` yields for an identity has distinct keys. -/
theorem inner_keysDistinct {C : Type} (m : Subscribers C) (hm : wellFormed m) (value : Nat) :
    keysDistinct ((OrderedMap.find value m).getD []) := by
  cases h : OrderedMap.find value m with
  | none => simp [keysDistinct]
  | some inner => exact hm.2 _ ((find_eq_some_iff value inner m hm.1).mp h)

/-- A registration keeps the registry well formed. -/
theorem register_wellFormed {C : Type} (value element : Nat) (subscriber : Option C)
    (m : Subscribers C) (hm : wellFormed m) :
    wellFormed (register value element subscriber m) := by
  refine ⟨assign_keysDistinct _ _ _ hm.1, ?_⟩
  intro s hs
  rcases (assign_mem_iff _ _ _ hm.1 s).mp hs with rfl | ⟨hs2, _⟩
  · exact assign_keysDistinct _ _ _ (inner_keysDistinct m hm value)
  · exact hm.2 s hs2

/-- Every registry built by registrations is well formed. -/
theorem registerAll_wellFormed {C : Type} (regs : List (Registration C)) :
    wellFormed (registerAll regs) := by
  induction regs using List.reverseRecOn with
  | nil => exact ⟨List.Pairwise.nil, by simp [registerAll]⟩
  | append_singleton regs r ih =>
    have : registerAll (regs ++ [r])
        = register r.value r.element r.subscriber (registerAll regs) := by
      simp [registerAll, List.foldl_append]
    rw [this]
    exact register_wellFormed _ _ _ _ ih

/-- A binding is held by the registry when its element entry sits in the inner mapping
of its identity. -/
theorem mem_entries_iff {C : Type} (m : Subscribers C) (x : Nat × Nat × Option C) :
    x ∈ entries m ↔ ∃ inner, (x.1, inner) ∈ m ∧ (x.2.1, x.2.2) ∈ inner := by
  obtain ⟨a, w, c⟩ := x
  simp only [entries, List.mem_flatMap, List.mem_map, Prod.mk.injEq]
  constructor
  · rintro ⟨⟨k, inner⟩, hs, ⟨w1, c1⟩, he, h1, h2, h3⟩
    subst h1 h2 h3
    exact ⟨inner, hs, he⟩
  · rintro ⟨inner, hs, he⟩
    exact ⟨(a, inner), hs, (w, c), he, rfl, rfl, rfl⟩

/-- The bindings held after a registration: the new one, and the old ones under other
(identity, element) keys. -/
theorem mem_entries_register_iff {C : Type} (value element : Nat) (subscriber : Option C)
    (m : Subscribers C) (hm : wellFormed m) (x : Nat × Nat × Option C) :
    x ∈ entries (register value element subscriber m)
      ↔ x = (value, element, subscriber)
        ∨ (x ∈ entries m ∧ ¬ (x.1 = value ∧ x.2.1 = element)) := by
  obtain ⟨a, w, c⟩ := x
  have hin := inner_keysDistinct m hm value
  rw [mem_entries_iff, mem_entries_iff]
  simp only [register]
  constructor
  · rintro ⟨inner, hs, he⟩
    rcases (assign_mem_iff _ _ _ hm.1 _).mp hs with h | ⟨hs2, hne⟩
    · rw [Prod.mk.injEq] at h
      obtain ⟨h1, h2⟩ := h
      subst h1 h2
      rcases (assign_mem_iff _ _ _ hin _).mp he with h | ⟨he2, hne2⟩
      · rw [Prod.mk.injEq] at h
        left
        rw [h.1, h.2]
      · right
        cases hf : OrderedMap.find a m with
        | none => rw [hf] at he2; simp at he2
        | some inner0 =>
          rw [hf] at he2
          refine ⟨⟨inner0, (find_eq_some_iff a inner0 m hm.1).mp hf, he2⟩, ?_⟩
          intro h
          exact hne2 h.2
    · right
      exact ⟨⟨inner, hs2, he⟩, fun h => hne h.1⟩
  · rintro (h | ⟨⟨inner, hs, he⟩, hne⟩)
    · simp only [Prod.mk.injEq] at h
      obtain ⟨h1, h2, h3⟩ := h
      subst h1 h2 h3
      exact ⟨_, (assign_mem_iff _ _ _ hm.1 _).mpr (Or.inl rfl),
        (assign_mem_iff _ _ _ hin _).mpr (Or.inl rfl)⟩
    · by_cases ha : a = value
      · subst ha
        have hw : w ≠ element := fun h => hne ⟨rfl, h⟩
        have hf := (find_eq_some_iff a inner m hm.1).mpr hs
        refine ⟨_, (assign_mem_iff _ _ _ hm.1 _).mpr (Or.inl rfl), ?_⟩
        rw [hf]
        exact (assign_mem_iff _ _ _ (hm.2 _ hs) _).mpr (Or.inr ⟨he, hw⟩)
      · exact ⟨inner, (assign_mem_iff _ _ _ hm.1 _).mpr (Or.inr ⟨hs, ha⟩), he⟩

/-- Pairwise distinct keys form a list without duplicates. -/
theorem keysDistinct_nodup {V : Type} (l : OrderedMap V) (hl : keysDistinct l) :
    (l.map Prod.fst).Nodup := by
  rw [List.Nodup, List.pairwise_map]
  exact hl

/-- A well-formed registry holds no binding twice. -/
theorem entries_nodup {C : Type} (m : Subscribers C) (hm : wellFormed m) :
    (entries m).Nodup := by
  obtain ⟨h1, h2⟩ := hm
  induction m with
  | nil => simp [entries]
  | cons s rest ih =>
    have hrest : keysDistinct rest := (List.pairwise_cons.mp h1).2
    have hhead : ∀ y ∈ rest, s.1 ≠ y.1 := (List.pairwise_cons.mp h1).1
    have ih2 := ih hrest (fun t ht => h2 t (List.mem_cons_of_mem _ ht))
    have hs : keysDistinct s.2 := h2 s (List.mem_cons_self _ _)
    have hcons : entries (s :: rest)
        = s.2.map (fun e => (s.1, e.1, e.2)) ++ entries rest := by
      simp [entries]
    rw [hcons, List.nodup_append]
    refine ⟨?_, ih2, ?_⟩
    · have hk := keysDistinct_nodup s.2 hs
      refine List.Nodup.of_map (fun e : Nat × Nat × Option C => e.2.1) ?_
      rw [List.map_map]
      exact hk
    · intro x hx1 hx2
      rw [List.mem_map] at hx1
      obtain ⟨e, _, rfl⟩ := hx1
      obtain ⟨inner, hmem, _⟩ := (mem_entries_iff rest _).mp hx2
      exact hhead _ hmem rfl

/-- Two functions that agree on the members of a list give the same `flatMap`. -/
theorem flatMap_congr_mem {α β : Type} (l : List α) (f g : α → List β)
    (h : ∀ a ∈ l, f a = g a) : l.flatMap f = l.flatMap g := by
  induction l with
  | nil => rfl
  | cons a t ih =>
    simp only [List.flatMap_cons]
    rw [h a (List.mem_cons_self _ _), ih (fun b hb => h b (List.mem_cons_of_mem _ hb))]

/-- Filtering each piece of a `flatMap` is filtering the whole. -/
theorem flatMap_filterMap {α β γ : Type} (l : List α) (g : α → List β) (f : β → Option γ) :
    l.flatMap (fun a => (g a).filterMap f) = (l.flatMap g).filterMap f := by
  induction l with
  | nil => rfl
  | cons a t ih => simp only [List.flatMap_cons, List.filterMap_append, ih]

/-- On a well-formed registry `refresh` invokes the non-empty closures of the bindings
held, in iteration order. -/
theorem refresh_eq_entries {C : Type} (m : Subscribers C) (hm : wellFormed m) :
    refresh m = (entries m).filterMap entryInvocation := by
  have h : ∀ s ∈ m, broadcast m s.1
      = (s.2.map (fun e => (s.1, e.1, e.2))).filterMap entryInvocation := by
    intro s hs
    have hf : OrderedMap.find s.1 m = some s.2 := (find_eq_some_iff s.1 s.2 m hm.1).mpr hs
    simp only [broadcast, hf, List.filterMap_map]
    rfl
  unfold refresh
  rw [flatMap_congr_mem m _ _ h]
  exact flatMap_filterMap m _ _

/-- With fresh elements, the bindings held after a sequence of registrations are exactly
the registered ones. -/
theorem mem_entries_registerAll {C : Type} (regs : List (Registration C))
    (hfresh : (regs.map (fun r => r.element)).Nodup) (x : Nat × Nat × Option C) :
    x ∈ entries (registerAll regs) ↔ x ∈ regs.map Registration.entry := by
  induction regs using List.reverseRecOn generalizing x with
  | nil => simp [registerAll, entries]
  | append_singleton regs r ih =>
    have hstep : registerAll (regs ++ [r])
        = register r.value r.element r.subscriber (registerAll regs) := by
      simp [registerAll, List.foldl_append]
    rw [List.map_append, List.nodup_append] at hfresh
    obtain ⟨hnd, _, hdisj⟩ := hfresh
    rw [hstep, mem_entries_register_iff _ _ _ _ (registerAll_wellFormed regs), ih hnd,
      List.map_append, List.mem_append]
    constructor
    · rintro (h | ⟨h, _⟩)
      · right
        rw [h]
        simp [Registration.entry]
      · exact Or.inl h
    · rintro (h | h)
      · right
        refine ⟨h, ?_⟩
        rintro ⟨_, h2⟩
        obtain ⟨r0, hr0, rfl⟩ := List.mem_map.mp h
        exact hdisj (List.mem_map.mpr ⟨r0, hr0, rfl⟩)
          (by simp only [Registration.entry] at h2; simp [h2])
      · left
        simpa [Registration.entry] using h

/-- C10: after any sequence of registrations with pairwise distinct (fresh) elements,
under identities that may repeat, one `refresh` invokes exactly the registered non-empty
closures, each once: its invocations are a permutation of the registered non-empty
bindings and contain no duplicate. -/
theorem refresh_completeness {C : Type} (regs : List (Registration C))
    (hfresh : (regs.map (fun r => r.element)).Nodup) :
    (refresh (registerAll regs)).Perm (regs.filterMap Registration.invocation) ∧
    (refresh (registerAll regs)).Nodup := by
  have hwf := registerAll_wellFormed regs
  have hnd1 := entries_nodup (registerAll regs) hwf
  have hnd2 : (regs.map Registration.entry).Nodup := by
    refine List.Nodup.of_map (fun e : Nat × Nat × Option C => e.2.1) ?_
    rw [List.map_map]
    exact hfresh
  have hperm : (entries (registerAll regs)).Perm (regs.map Registration.entry) :=
    (List.perm_ext_iff_of_nodup hnd1 hnd2).mpr (mem_entries_registerAll regs hfresh)
  have hinv : regs.filterMap Registration.invocation
      = (regs.map Registration.entry).filterMap entryInvocation := by
    rw [List.filterMap_map]
    rfl
  have hp : (refresh (registerAll regs)).Perm (regs.filterMap Registration.invocation) := by
    rw [refresh_eq_entries _ hwf, hinv]
    exact hperm.filterMap _
  refine ⟨hp, hp.nodup_iff.mpr ?_⟩
  refine List.Nodup.filterMap ?_ (List.Nodup.of_map _ hfresh)
  intro r1 r2 i h1 h2
  obtain ⟨v1, e1, s1⟩ := r1
  obtain ⟨v2, e2, s2⟩ := r2
  cases s1 <;> cases s2 <;> simp [Registration.invocation] at h1 h2
  obtain ⟨rfl, rfl, rfl⟩ := h1
  simp only [Prod.mk.injEq] at h2
  obtain ⟨rfl, rfl, rfl⟩ := h2
  rfl

/-- Witness of C10: four registrations, three of them under the same identity `5` and
one with an empty closure. -/
theorem refresh_completeness_witness :
    (([⟨5, 100, some 1⟩, ⟨3, 101, some 2⟩, ⟨5, 99, some 3⟩, ⟨5, 98, none⟩] :
        List (Registration Nat)).map (fun r => r.element)).Nodup ∧
    (refresh (registerAll
        ([⟨5, 100, some 1⟩, ⟨3, 101, some 2⟩, ⟨5, 99, some 3⟩, ⟨5, 98, none⟩] :
          List (Registration Nat)))).Perm [(5, 100, 1), (3, 101, 2), (5, 99, 3)] :=
  ⟨by decide, (refresh_completeness _ (by decide)).1⟩

end RegistryTheorems

section OrderTheorems

/-- The invocations under one identity among those of the bindings held: the bindings of
the inner mapping of that identity, in its order. -/
theorem filter_entries {C : Type} (m : Subscribers C) (hm : keysDistinct m) (v : Nat) :
    (entries m).filter (fun e => decide (e.1 = v))
      = ((OrderedMap.find v m).getD []).map (fun e => (v, e.1, e.2)) := by
  induction m with
  | nil => simp [entries, OrderedMap.find]
  | cons s rest ih =>
    obtain ⟨k, inner⟩ := s
    have hrest : keysDistinct rest := (List.pairwise_cons.mp hm).2
    have hhead : ∀ y ∈ rest, k ≠ y.1 := (List.pairwise_cons.mp hm).1
    have hcons : entries ((k, inner) :: rest)
        = inner.map (fun e => (k, e.1, e.2)) ++ entries rest := by
      simp [entries]
    rw [hcons, List.filter_append, ih hrest]
    by_cases hk : v = k
    · subst hk
      have hnone : OrderedMap.find v rest = none :=
        (find_eq_none_iff v rest).mpr (fun x hx h => hhead x hx h.symm)
      have hall : (inner.map (fun e => (v, e.1, e.2))).filter
          (fun e : Nat × Nat × Option C => decide (e.1 = v))
          = inner.map (fun e => (v, e.1, e.2)) := by
        rw [List.filter_eq_self]
        intro e he
        obtain ⟨x, _, rfl⟩ := List.mem_map.mp he
        simp
      rw [hall, hnone]
      simp [OrderedMap.find]
    · have hnil : (inner.map (fun e => (k, e.1, e.2))).filter
          (fun e : Nat × Nat × Option C => decide (e.1 = v)) = [] := by
        rw [List.filter_eq_nil_iff]
        intro e he
        obtain ⟨x, _, rfl⟩ := List.mem_map.mp he
        simpa using fun h : k = v => hk h.symm
      rw [hnil]
      simp [OrderedMap.find, hk]

/-- Selecting the invocations of one identity commutes with dropping empty closures. -/
theorem filter_filterMap_entryInvocation {C : Type} (l : List (Nat × Nat × Option C))
    (v : Nat) :
    (l.filterMap entryInvocation).filter (fun i => decide (i.1 = v))
      = (l.filter (fun e => decide (e.1 = v))).filterMap entryInvocation := by
  induction l with
  | nil => rfl
  | cons e t ih =>
    obtain ⟨a, w, c⟩ := e
    cases c with
    | none =>
      by_cases h : a = v <;> simp [entryInvocation, List.filter_cons, h, ih]
    | some c =>
      by_cases h : a = v <;> simp [entryInvocation, List.filter_cons, h, ih]

/-- When no (identity, element) pair is registered twice, the inner mapping of every
identity holds the bindings registered under it, in registration order, and every
identity registered is a key. -/
theorem registerAll_inner {C : Type} (regs : List (Registration C))
    (hfresh : (regs.map (fun r => (r.value, r.element))).Nodup) :
    (∀ s ∈ registerAll regs,
      s.2 = (regs.filter (fun r => decide (r.value = s.1))).map
              (fun r => (r.element, r.subscriber))) ∧
    (∀ r ∈ regs, ∃ inner, (r.value, inner) ∈ registerAll regs) := by
  induction regs using List.reverseRecOn with
  | nil => simp [registerAll]
  | append_singleton regs r ih =>
    have hstep : registerAll (regs ++ [r])
        = register r.value r.element r.subscriber (registerAll regs) := by
      simp [registerAll, List.foldl_append]
    rw [List.map_append, List.nodup_append] at hfresh
    obtain ⟨hnd, _, hdisj⟩ := hfresh
    obtain ⟨ih1, ih2⟩ := ih hnd
    have hwf := registerAll_wellFormed regs
    have hinner : (OrderedMap.find r.value (registerAll regs)).getD []
        = (regs.filter (fun x => decide (x.value = r.value))).map
            (fun x => (x.element, x.subscriber)) := by
      cases hf : OrderedMap.find r.value (registerAll regs) with
      | some inner =>
        have hmem := (find_eq_some_iff _ _ _ hwf.1).mp hf
        simpa using ih1 _ hmem
      | none =>
        have hno := (find_eq_none_iff _ _).mp hf
        have hempty : regs.filter (fun x => decide (x.value = r.value)) = [] := by
          rw [List.filter_eq_nil_iff]
          intro x hx hv
          obtain ⟨inner, hin⟩ := ih2 x hx
          have := hno _ hin
          simp only [decide_eq_true_eq] at hv
          exact this hv
        simp [hempty]
    have hnew : ∀ x ∈ (OrderedMap.find r.value (registerAll regs)).getD [],
        x.1 ≠ r.element := by
      rw [hinner]
      intro x hx heq
      obtain ⟨y, hy, rfl⟩ := List.mem_map.mp hx
      rw [List.mem_filter] at hy
      simp only [decide_eq_true_eq] at hy
      apply hdisj (List.mem_map.mpr ⟨y, hy.1, rfl⟩)
      simp only at heq
      simp [hy.2, heq]
    have hassign : OrderedMap.assign r.element r.subscriber
          ((OrderedMap.find r.value (registerAll regs)).getD [])
        = ((regs ++ [r]).filter (fun x => decide (x.value = r.value))).map
            (fun x => (x.element, x.subscriber)) := by
      rw [assign_append _ _ _ hnew, hinner]
      simp
    rw [hstep]
    unfold register
    rw [hassign]
    constructor
    · intro s hs
      rcases (assign_mem_iff _ _ _ hwf.1 s).mp hs with rfl | ⟨hs2, hne⟩
      · rfl
      · rw [ih1 s hs2]
        have : decide (r.value = s.1) = false := by
          simpa using fun h : r.value = s.1 => hne h.symm
        simp [List.filter_append, this]
    · intro x hx
      rcases List.mem_append.mp hx with hx | hx
      · obtain ⟨inner, hin⟩ := ih2 x hx
        by_cases hv : x.value = r.value
        · exact ⟨_, (assign_mem_iff _ _ _ hwf.1 _).mpr (Or.inl (by rw [hv]))⟩
        · exact ⟨inner, (assign_mem_iff _ _ _ hwf.1 _).mpr (Or.inr ⟨hin, hv⟩)⟩
      · rw [List.mem_singleton] at hx
        subst hx
        exact ⟨_, (assign_mem_iff _ _ _ hwf.1 _).mpr (Or.inl rfl)⟩

/-- C11: for bindings registered with no (identity, element) pair twice, the widget
factories always registering a newly created element, `refresh` invokes the closures
registered under any one external-value identity in the order in which they were
registered: its invocations under identity `v` are the non-empty closures registered
under `v`, in registration order. -/
theorem refresh_registration_order {C : Type} (regs : List (Registration C))
    (hfresh : (regs.map (fun r => (r.value, r.element))).Nodup) (v : Nat) :
    (refresh (registerAll regs)).filter (fun i => decide (i.1 = v))
      = (regs.filter (fun r => decide (r.value = v))).filterMap
          Registration.invocation := by
  have hwf := registerAll_wellFormed regs
  obtain ⟨h1, h2⟩ := registerAll_inner regs hfresh
  have hinner : (OrderedMap.find v (registerAll regs)).getD []
      = (regs.filter (fun x => decide (x.value = v))).map
          (fun x => (x.element, x.subscriber)) := by
    cases hf : OrderedMap.find v (registerAll regs) with
    | some inner =>
      have hmem := (find_eq_some_iff _ _ _ hwf.1).mp hf
      simpa using h1 _ hmem
    | none =>
      have hno := (find_eq_none_iff _ _).mp hf
      have hempty : regs.filter (fun x => decide (x.value = v)) = [] := by
        rw [List.filter_eq_nil_iff]
        intro x hx hv
        obtain ⟨inner, hin⟩ := h2 x hx
        have := hno _ hin
        simp only [decide_eq_true_eq] at hv
        exact this hv
      simp [hempty]
  rw [refresh_eq_entries _ hwf, filter_filterMap_entryInvocation,
    filter_entries _ hwf.1, hinner, List.map_map, List.filterMap_map]
  apply List.filterMap_congr
  intro x hx
  rw [List.mem_filter] at hx
  have hv : x.value = v := by simpa using hx.2
  obtain ⟨xv, xe, xs⟩ := x
  simp only at hv
  subst hv
  cases xs <;> rfl

/-- Witness of C11: bindings registered under identity `5` on elements `100` and then
`99`, with a binding of identity `3` registered between them, are invoked under
identity `5` in the order of registration, element `100` first. -/
theorem refresh_registration_order_witness :
    (([⟨5, 100, some 1⟩, ⟨3, 101, some 2⟩, ⟨5, 99, some 3⟩] :
        List (Registration Nat)).map (fun r => (r.value, r.element))).Nodup ∧
    (refresh (registerAll
        ([⟨5, 100, some 1⟩, ⟨3, 101, some 2⟩, ⟨5, 99, some 3⟩] :
          List (Registration Nat)))).filter (fun i => decide (i.1 = 5))
      = [(5, 100, 1), (5, 99, 3)] :=
  ⟨by decide,
   refresh_registration_order
     ([⟨5, 100, some 1⟩, ⟨3, 101, some 2⟩, ⟨5, 99, some 3⟩] : List (Registration Nat))
     (by decide) 5⟩

end OrderTheorems

section PanelTheorems

/-- The number of rows of a panel holding `n` widgets. -/
theorem rowPattern_length (n : Nat) : (rowPattern n).length = 2 * n - 1 := by
  induction n using rowPattern.induct with
  | case1 => rfl
  | case2 => rfl
  | case3 n ih =>
    rw [rowPattern, List.length_append, ih]
    simp only [List.length_cons, List.length_nil]
    omega

/-- In the row pattern, even rows have height `0` and odd rows height `3`. -/
theorem rowPattern_getElem? (n i : Nat) (hi : i < 2 * n - 1) :
    (rowPattern n)[i]? = some (if i % 2 = 0 then 0 else 3) := by
  induction n using rowPattern.induct with
  | case1 => omega
  | case2 =>
    have : i = 0 := by omega
    subst this
    rfl
  | case3 n ih =>
    rw [rowPattern]
    have hlen := rowPattern_length (n + 1)
    by_cases h : i < 2 * (n + 1) - 1
    · rw [List.getElem?_append_left (by omega)]
      exact ih h
    · rw [List.getElem?_append_right (by omega), hlen]
      have h2 : i = 2 * n + 1 ∨ i = 2 * n + 2 := by omega
      rcases h2 with rfl | rfl
      · have e : 2 * n + 1 - (2 * (n + 1) - 1) = 0 := by omega
        have e2 : (2 * n + 1) % 2 = 1 := by omega
        rw [e, e2]
        rfl
      · have e : 2 * n + 2 - (2 * (n + 1) - 1) = 1 := by omega
        have e2 : (2 * n + 2) % 2 = 0 := by omega
        rw [e, e2]
        rfl

/-- One `add_widget` call, of either overload, on a panel showing the row pattern of
`n` widgets: the rows become the pattern of `n + 1` widgets, columns are untouched, and
the anchors logged are those of the call's widgets, all in row `2 * n`. -/
theorem addWidgetCall_step (l : AdvancedGridLayout) (n : Nat) (c : AddWidgetCall)
    (hrows : l.rows = rowPattern n) :
    (addWidgetCall l c).rows = rowPattern (n + 1) ∧
    (addWidgetCall l c).cols = l.cols ∧
    ∃ added, (addWidgetCall l c).anchors = l.anchors ++ added ∧
      added.map Prod.fst = c.widgets ∧ ∀ a ∈ added, a.2.y = 2 * n := by
  have hrows1 : (if l.rowCount > 0 then l.appendRow 3 else l).appendRow 0
      = { l with rows := rowPattern (n + 1) } := by
    cases n with
    | zero =>
      have h0 : l.rowCount = 0 := by simp [AdvancedGridLayout.rowCount, hrows, rowPattern]
      simp [h0, AdvancedGridLayout.appendRow, hrows, rowPattern]
    | succ k =>
      have hlen := rowPattern_length (k + 1)
      have h0 : l.rowCount > 0 := by
        simp only [AdvancedGridLayout.rowCount, hrows, hlen]
        omega
      simp [h0, AdvancedGridLayout.appendRow, hrows, rowPattern]
  have hcount : ({ l with rows := rowPattern (n + 1) } : AdvancedGridLayout).rowCount - 1
      = 2 * n := by
    simp only [AdvancedGridLayout.rowCount, rowPattern_length]
    omega
  cases c with
  | one w =>
    have hres : addWidgetCall l (AddWidgetCall.one w)
        = { l with rows := rowPattern (n + 1)
                   anchors := l.anchors ++ [(w, ⟨0, 2 * n, l.cols.length, 1⟩)] } := by
      simp only [addWidgetCall, add_widget, hrows1, AdvancedGridLayout.setAnchor, hcount,
        AdvancedGridLayout.colCount]
    rw [hres]
    exact ⟨rfl, rfl, [(w, ⟨0, 2 * n, l.cols.length, 1⟩)], rfl, rfl, by simp⟩
  | pair wl wr =>
    cases wl with
    | none =>
      cases wr with
      | none =>
        have hres : addWidgetCall l (AddWidgetCall.pair none none)
            = { l with rows := rowPattern (n + 1) } := by
          simp only [addWidgetCall, add_widget_pair, hrows1]
        rw [hres]
        exact ⟨rfl, rfl, [], by simp, rfl, by simp⟩
      | some r =>
        have hres : addWidgetCall l (AddWidgetCall.pair none (some r))
            = { l with rows := rowPattern (n + 1)
                       anchors := l.anchors ++ [(r, ⟨2, 2 * n, 1, 1⟩)] } := by
          simp only [addWidgetCall, add_widget_pair, hrows1, AdvancedGridLayout.setAnchor,
            hcount]
        rw [hres]
        exact ⟨rfl, rfl, [(r, ⟨2, 2 * n, 1, 1⟩)], rfl, rfl, by simp⟩
    | some w =>
      have hcount2 : ({ l with rows := rowPattern (n + 1)
                               anchors := l.anchors ++ [(w, ⟨0, 2 * n, 1, 1⟩)] } :
          AdvancedGridLayout).rowCount - 1 = 2 * n := hcount
      cases wr with
      | none =>
        have hres : addWidgetCall l (AddWidgetCall.pair (some w) none)
            = { l with rows := rowPattern (n + 1)
                       anchors := l.anchors ++ [(w, ⟨0, 2 * n, 1, 1⟩)] } := by
          simp only [addWidgetCall, add_widget_pair, hrows1, AdvancedGridLayout.setAnchor,
            hcount]
        rw [hres]
        exact ⟨rfl, rfl, [(w, ⟨0, 2 * n, 1, 1⟩)], rfl, rfl, by simp⟩
      | some r =>
        have hres : addWidgetCall l (AddWidgetCall.pair (some w) (some r))
            = { l with rows := rowPattern (n + 1)
                       anchors := l.anchors ++ [(w, ⟨0, 2 * n, 1, 1⟩), (r, ⟨2, 2 * n, 1, 1⟩)] } := by
          simp only [addWidgetCall, add_widget_pair, hrows1, AdvancedGridLayout.setAnchor,
            hcount, hcount2, List.append_assoc, List.singleton_append]
        rw [hres]
        exact ⟨rfl, rfl, [(w, ⟨0, 2 * n, 1, 1⟩), (r, ⟨2, 2 * n, 1, 1⟩)], rfl, rfl, by simp⟩

/-- After a sequence of `add_widget` calls on a panel without rows, the rows show the
pattern of as many widgets as there were calls. -/
theorem addWidgetCalls_rows (l : AdvancedGridLayout) (hl : l.rows = [])
    (calls : List AddWidgetCall) :
    (addWidgetCalls l calls).rows = rowPattern calls.length := by
  induction calls using List.reverseRecOn with
  | nil => simpa [addWidgetCalls, rowPattern] using hl
  | append_singleton calls c ih =>
    have hstep : addWidgetCalls l (calls ++ [c])
        = addWidgetCall (addWidgetCalls l calls) c := by
      simp [addWidgetCalls, List.foldl_append]
    rw [hstep, (addWidgetCall_step _ _ c ih).1]
    simp

/-- C12: after `N ≥ 1` calls of `add_widget`, of either overload in any mix, on a panel
whose grid has no rows, the grid has `2 * N - 1` rows, height `0` at even and height `3`
at odd row indices, and the widgets of call `k` (counted from `0`) are anchored in row
`2 * k`. -/
theorem panel_row_growth (l : AdvancedGridLayout) (hl : l.rows = [])
    (calls : List AddWidgetCall) (_hN : 1 ≤ calls.length) :
    (addWidgetCalls l calls).rowCount = 2 * calls.length - 1 ∧
    (∀ i, i < 2 * calls.length - 1 →
      (addWidgetCalls l calls).rows[i]? = some (if i % 2 = 0 then 0 else 3)) ∧
    (∀ (k : Nat) (hk : k < calls.length), ∃ added,
      (addWidgetCalls l (calls.take (k + 1))).anchors
        = (addWidgetCalls l (calls.take k)).anchors ++ added ∧
      added.map Prod.fst = calls[k].widgets ∧ ∀ a ∈ added, a.2.y = 2 * k) := by
  have hrows := addWidgetCalls_rows l hl calls
  refine ⟨?_, ?_, ?_⟩
  · rw [AdvancedGridLayout.rowCount, hrows, rowPattern_length]
  · intro i hi
    rw [hrows]
    exact rowPattern_getElem? _ i hi
  · intro k hk
    have htake : calls.take (k + 1) = calls.take k ++ [calls[k]] := by
      rw [List.take_succ, List.getElem?_eq_getElem hk]
      rfl
    have hstep : addWidgetCalls l (calls.take (k + 1))
        = addWidgetCall (addWidgetCalls l (calls.take k)) calls[k] := by
      rw [htake]
      unfold addWidgetCalls
      rw [List.foldl_append]
      rfl
    have hr := addWidgetCalls_rows l hl (calls.take k)
    have hlen : (calls.take k).length = k := by
      rw [List.length_take]
      omega
    rw [hlen] at hr
    rw [hstep]
    exact (addWidgetCall_step _ k calls[k] hr).2.2

/-- Witness of C12: three calls on the grid of a new panel, the second one of the
two-widget overload, give five rows of heights `0, 3, 0, 3, 0`. -/
theorem panel_row_growth_witness :
    (newPanel 0 "Camera").layout.rows = [] ∧
    (addWidgetCalls (newPanel 0 "Camera").layout
        [AddWidgetCall.one 7, AddWidgetCall.pair (some 8) (some 9),
         AddWidgetCall.one 10]).rowCount = 5 ∧
    (addWidgetCalls (newPanel 0 "Camera").layout
        [AddWidgetCall.one 7, AddWidgetCall.pair (some 8) (some 9),
         AddWidgetCall.one 10]).rows = [0, 3, 0, 3, 0] :=
  ⟨rfl,
   (panel_row_growth (newPanel 0 "Camera").layout rfl
      [AddWidgetCall.one 7, AddWidgetCall.pair (some 8) (some 9), AddWidgetCall.one 10]
      (by decide)).1,
   by decide⟩

/-- The test `m_panels.count(title) == 0` says that the title is not a key. -/
theorem count_eq_zero_iff (reg : PanelRegistry) (title : String) :
    reg.count title = 0 ↔ title ∉ reg.m_panels.map Prod.fst := by
  simp only [PanelRegistry.count, List.countP_eq_zero, List.mem_map, decide_eq_true_eq]
  constructor
  · rintro h ⟨e, he, rfl⟩
    exact h e he rfl
  · intro h e he heq
    exact h ⟨e, he, heq⟩

/-- The registry that `panel` leaves. -/
theorem panel_registry (reg : PanelRegistry) (title : String) :
    (panel reg title).1
      = if reg.count title = 0 then
          ⟨reg.m_panels ++ [(title, newPanel reg.created title)], reg.created + 1⟩
        else reg := by
  by_cases h : reg.count title = 0
  · have h2 : ({ reg with created := reg.created + 1 } : PanelRegistry).count title = 0 := h
    simp only [panel, h, if_true, PanelRegistry.emplace, h2]
  · simp only [panel, h, if_false]

/-- After `panel(title)` the title is a key. -/
theorem panel_count_ne_zero (reg : PanelRegistry) (title : String) :
    (panel reg title).1.count title ≠ 0 := by
  rw [panel_registry]
  by_cases h : reg.count title = 0
  · rw [if_pos h]
    simp [PanelRegistry.count]
  · rw [if_neg h]
    exact h

/-- Lookup of a key finds a panel. -/
theorem at_isSome_of_count (reg : PanelRegistry) (title : String)
    (h : reg.count title ≠ 0) : ∃ w, reg.at title = some w := by
  have hpos : 0 < reg.m_panels.countP (fun e => decide (e.1 = title)) :=
    Nat.pos_of_ne_zero h
  obtain ⟨e, he, hp⟩ := List.countP_pos_iff.mp hpos
  cases hf : reg.m_panels.find? (fun e => decide (e.1 = title)) with
  | none =>
    rw [List.find?_eq_none] at hf
    exact absurd hp (hf e he)
  | some x => exact ⟨x.2, by simp [PanelRegistry.at, hf]⟩

/-- The keys of `m_panels` after `panel(title)`. -/
theorem panel_keys (reg : PanelRegistry) (title : String) :
    (panel reg title).1.m_panels.map Prod.fst
      = if title ∈ reg.m_panels.map Prod.fst then reg.m_panels.map Prod.fst
        else reg.m_panels.map Prod.fst ++ [title] := by
  rw [panel_registry]
  by_cases h : reg.count title = 0
  · rw [if_pos h, if_neg ((count_eq_zero_iff reg title).mp h)]
    simp
  · rw [if_neg h, if_pos (by
      by_contra hc
      exact h ((count_eq_zero_iff reg title).mpr hc))]

/-- After any sequence of `panel` calls the keys are pairwise distinct and are exactly
the titles referenced. -/
theorem panelCalls_keys (titles : List String) :
    ((panelCalls titles).m_panels.map Prod.fst).Nodup ∧
    ∀ t, t ∈ (panelCalls titles).m_panels.map Prod.fst ↔ t ∈ titles := by
  induction titles using List.reverseRecOn with
  | nil => simp [panelCalls]
  | append_singleton titles t ih =>
    have hstep : panelCalls (titles ++ [t]) = (panel (panelCalls titles) t).1 := by
      simp [panelCalls, List.foldl_append]
    obtain ⟨hnd, hmem⟩ := ih
    rw [hstep, panel_keys]
    by_cases h : t ∈ (panelCalls titles).m_panels.map Prod.fst
    · rw [if_pos h]
      refine ⟨hnd, ?_⟩
      intro x
      rw [hmem x, List.mem_append, List.mem_singleton]
      constructor
      · exact Or.inl
      · rintro (hx | rfl)
        · exact hx
        · exact (hmem _).mp h
    · rw [if_neg h]
      refine ⟨?_, ?_⟩
      · rw [List.nodup_append]
        refine ⟨hnd, List.nodup_singleton t, ?_⟩
        intro x hx1 hx2
        rw [List.mem_singleton] at hx2
        subst hx2
        exact h hx1
      · intro x
        rw [List.mem_append, List.mem_append, hmem x]

/-- C13: `panel(title)` creates a panel only when the title is not yet a key and
otherwise leaves the registry as it is; it always returns a panel; a second
`panel(title)` returns the same panel and creates nothing; the panels cached under other
titles are unchanged; and after any sequence of calls on a window without panels the
number of panels is the number of distinct titles referenced. -/
theorem panel_idempotent (reg : PanelRegistry) (title : String) :
    ((panel reg title).1
      = if reg.count title = 0 then
          ⟨reg.m_panels ++ [(title, newPanel reg.created title)], reg.created + 1⟩
        else reg) ∧
    (∃ w, (panel reg title).2 = some w) ∧
    (panel (panel reg title).1 title = ((panel reg title).1, (panel reg title).2)) ∧
    (∀ t, t ≠ title → (panel reg title).1.at t = reg.at t) ∧
    (∀ titles : List String, (panelCalls titles).m_panels.length = titles.dedup.length) := by
  have hne := panel_count_ne_zero reg title
  refine ⟨panel_registry reg title, ?_, ?_, ?_, ?_⟩
  · exact at_isSome_of_count _ title hne
  · have h2 : (panel (panel reg title).1 title).1 = (panel reg title).1 := by
      rw [panel_registry (panel reg title).1 title, if_neg hne]
    have h3 : (panel (panel reg title).1 title).2
        = (panel (panel reg title).1 title).1.at title := rfl
    have h4 : (panel reg title).2 = (panel reg title).1.at title := rfl
    apply Prod.ext
    · exact h2
    · rw [h3, h2, h4]
  · intro t ht
    rw [panel_registry]
    by_cases h : reg.count title = 0
    · rw [if_pos h]
      have : ¬ title = t := fun h => ht h.symm
      simp [PanelRegistry.at, List.find?_append, this]
    · rw [if_neg h]
  · intro titles
    obtain ⟨hnd, hmem⟩ := panelCalls_keys titles
    have hperm : ((panelCalls titles).m_panels.map Prod.fst).Perm titles.dedup :=
      (List.perm_ext_iff_of_nodup hnd (List.nodup_dedup titles)).mpr
        (fun x => by rw [hmem x, List.mem_dedup])
    have := hperm.length_eq
    rw [List.length_map] at this
    exact this

/-- Witness of C13: on a window without panels, `panel` with the titles "Camera",
"Graphs", "Camera" creates two panels, and the panel cached under "Camera" is untouched
by the call for "Graphs". -/
theorem panel_idempotent_witness :
    "Camera" ≠ "Graphs" ∧
    (panel (panel ⟨[], 0⟩ "Camera").1 "Graphs").1.at "Camera"
      = (panel ⟨[], 0⟩ "Camera").1.at "Camera" ∧
    (panelCalls ["Camera", "Graphs", "Camera"]).m_panels.length = 2 :=
  ⟨by decide,
   (panel_idempotent (panel ⟨[], 0⟩ "Camera").1 "Graphs").2.2.2.1 "Camera" (by decide),
   by decide⟩

end PanelTheorems

section MatrixTheorems

/-- Eigen's angle-axis rotation about the X axis is the usual rotation matrix. -/
theorem angleAxis_unitX {K : Type} [LinearOrderedField K] (M : MathLib K) (angle : K) :
    angleAxis M angle unitX = rotX M angle := by
  simp [angleAxis, unitX, rotX]

/-- Eigen's angle-axis rotation about the Y axis is the usual rotation matrix. -/
theorem angleAxis_unitY {K : Type} [LinearOrderedField K] (M : MathLib K) (angle : K) :
    angleAxis M angle unitY = rotY M angle := by
  simp [angleAxis, unitY, rotY]

/-- Eigen's angle-axis rotation about the Z axis is the usual rotation matrix. -/
theorem angleAxis_unitZ {K : Type} [LinearOrderedField K] (M : MathLib K) (angle : K) :
    angleAxis M angle unitZ = rotZ M angle := by
  simp [angleAxis, unitZ, rotZ]

/-- The rotation of `world_matrix` as a product of axis rotations. -/
theorem worldRotation_eq {K : Type} [LinearOrderedField K] (M : MathLib K)
    (st : CameraState K) :
    worldRotation M st
      = rotZ M (radians M st.viewport_ryp.y)
        * (rotX M (radians M st.viewport_ryp.z) * rotY M (radians M st.viewport_ryp.x)) := by
  simp only [worldRotation, angleAxis_unitX, angleAxis_unitY, angleAxis_unitZ, radians,
    Matrix.mul_one]

/-- A rotation about the X axis times its transpose is the identity. -/
theorem rotX_orthogonal {K : Type} [LinearOrderedField K] (M : MathLib K) (angle : K)
    (h : M.cos angle ^ 2 + M.sin angle ^ 2 = 1) :
    (rotX M angle).transpose * rotX M angle = 1 := by
  have h2 : M.cos angle * M.cos angle + M.sin angle * M.sin angle = 1 := by
    rw [← h]; ring
  have h3 : M.sin angle * M.sin angle + M.cos angle * M.cos angle = 1 := by
    rw [← h]; ring
  ext i j
  fin_cases i <;> fin_cases j <;>
    simp [rotX, Matrix.mul_apply, Fin.sum_univ_three, Matrix.vecHead, Matrix.vecTail,
      Matrix.one_apply, h2, h3, mul_comm]

/-- A rotation about the Y axis times its transpose is the identity. -/
theorem rotY_orthogonal {K : Type} [LinearOrderedField K] (M : MathLib K) (angle : K)
    (h : M.cos angle ^ 2 + M.sin angle ^ 2 = 1) :
    (rotY M angle).transpose * rotY M angle = 1 := by
  have h2 : M.cos angle * M.cos angle + M.sin angle * M.sin angle = 1 := by
    rw [← h]; ring
  have h3 : M.sin angle * M.sin angle + M.cos angle * M.cos angle = 1 := by
    rw [← h]; ring
  ext i j
  fin_cases i <;> fin_cases j <;>
    simp [rotY, Matrix.mul_apply, Fin.sum_univ_three, Matrix.vecHead, Matrix.vecTail,
      Matrix.one_apply, h2, h3, mul_comm]

/-- A rotation about the Z axis times its transpose is the identity. -/
theorem rotZ_orthogonal {K : Type} [LinearOrderedField K] (M : MathLib K) (angle : K)
    (h : M.cos angle ^ 2 + M.sin angle ^ 2 = 1) :
    (rotZ M angle).transpose * rotZ M angle = 1 := by
  have h2 : M.cos angle * M.cos angle + M.sin angle * M.sin angle = 1 := by
    rw [← h]; ring
  have h3 : M.sin angle * M.sin angle + M.cos angle * M.cos angle = 1 := by
    rw [← h]; ring
  ext i j
  fin_cases i <;> fin_cases j <;>
    simp [rotZ, Matrix.mul_apply, Fin.sum_univ_three, Matrix.vecHead, Matrix.vecTail,
      Matrix.one_apply, h2, h3, mul_comm]

/-- The rotation of `world_matrix` times its transpose is the identity, for a math
library whose `cos` and `sin` lie on the unit circle. -/
theorem worldRotation_orthogonal {K : Type} [LinearOrderedField K] (M : MathLib K)
    (hM : ∀ t, M.cos t ^ 2 + M.sin t ^ 2 = 1) (st : CameraState K) :
    (worldRotation M st).transpose * worldRotation M st = 1 := by
  rw [worldRotation_eq, Matrix.transpose_mul, Matrix.transpose_mul]
  have hx := rotX_orthogonal M (radians M st.viewport_ryp.z) (hM _)
  have hy := rotY_orthogonal M (radians M st.viewport_ryp.x) (hM _)
  have hz := rotZ_orthogonal M (radians M st.viewport_ryp.y) (hM _)
  calc (rotY M (radians M st.viewport_ryp.x)).transpose
          * (rotX M (radians M st.viewport_ryp.z)).transpose
          * (rotZ M (radians M st.viewport_ryp.y)).transpose
          * (rotZ M (radians M st.viewport_ryp.y)
            * (rotX M (radians M st.viewport_ryp.z) * rotY M (radians M st.viewport_ryp.x)))
      = (rotY M (radians M st.viewport_ryp.x)).transpose
          * ((rotX M (radians M st.viewport_ryp.z)).transpose
            * ((rotZ M (radians M st.viewport_ryp.y)).transpose
                * rotZ M (radians M st.viewport_ryp.y))
            * rotX M (radians M st.viewport_ryp.z))
          * rotY M (radians M st.viewport_ryp.x) := by
        simp only [Matrix.mul_assoc]
    _ = 1 := by
        rw [hz, Matrix.mul_one, hx, Matrix.mul_one, hy]

/-- A rigid transform with rotation `Rᵀ` and translation `-Rᵀ p` undoes the placement
with rotation `R` and translation `p`, when `Rᵀ R` is the identity. -/
theorem rigid_inverse {K : Type} [LinearOrderedField K] (R : Matrix (Fin 3) (Fin 3) K)
    (p : Fin 3 → K) (hR : R.transpose * R = 1) :
    (!![R.transpose 0 0, R.transpose 0 1, R.transpose 0 2, ((-R.transpose).mulVec p) 0;
        R.transpose 1 0, R.transpose 1 1, R.transpose 1 2, ((-R.transpose).mulVec p) 1;
        R.transpose 2 0, R.transpose 2 1, R.transpose 2 2, ((-R.transpose).mulVec p) 2;
        0, 0, 0, 1] : Matrix (Fin 4) (Fin 4) K)
      * !![R 0 0, R 0 1, R 0 2, p 0;
           R 1 0, R 1 1, R 1 2, p 1;
           R 2 0, R 2 1, R 2 2, p 2;
           0, 0, 0, 1] = 1 := by
  have e : ∀ i j : Fin 3, R 0 i * R 0 j + R 1 i * R 1 j + R 2 i * R 2 j
      = if i = j then 1 else 0 := by
    intro i j
    have h := congrFun (congrFun hR i) j
    simpa only [Matrix.mul_apply, Fin.sum_univ_three, Matrix.transpose_apply,
      Matrix.one_apply] using h
  have h00 := e 0 0
  have h01 := e 0 1
  have h02 := e 0 2
  have h10 := e 1 0
  have h11 := e 1 1
  have h12 := e 1 2
  have h20 := e 2 0
  have h21 := e 2 1
  have h22 := e 2 2
  rw [if_pos rfl] at h00 h11 h22
  rw [if_neg (by decide)] at h01 h02 h10 h12 h20 h21
  ext i j
  fin_cases i <;> fin_cases j <;>
    simp [Matrix.mul_apply, Fin.sum_univ_four, Fin.sum_univ_three, Matrix.mulVec,
      Matrix.dotProduct, Matrix.vecHead, Matrix.vecTail, Matrix.one_apply] <;>
    first
    | assumption
    | ring

/-- The rational math library keeps `cos` and `sin` on the unit circle. -/
theorem ratMath_unit (t : ℚ) : ratMath.cos t ^ 2 + ratMath.sin t ^ 2 = 1 := by
  have hpos : 0 < 1 + t * t := by nlinarith [mul_self_nonneg t]
  have h : (1 + t * t) ≠ 0 := ne_of_gt hpos
  simp only [ratMath]
  field_simp
  ring

/-- C14: for every orientation and position, with `R` the rotation built by
`world_matrix` (math library with `cos` and `sin` on the unit circle), the matrix
returned has upper-left block `Rᵀ`, translation column `-Rᵀ * position` and last row
`(0, 0, 0, 1)`, and its product on either side with the placement matrix
`[R, position; 0 0 0 1]` is the identity. -/
theorem world_matrix_inverse {K : Type} [LinearOrderedField K] (M : MathLib K)
    (hM : ∀ t, M.cos t ^ 2 + M.sin t ^ 2 = 1) (st : CameraState K) :
    block33 (world_matrix M st) = (worldRotation M st).transpose ∧
    ![world_matrix M st 0 3, world_matrix M st 1 3, world_matrix M st 2 3]
      = -((worldRotation M st).transpose.mulVec st.viewport_xyz.toFun) ∧
    world_matrix M st 3 = ![0, 0, 0, 1] ∧
    world_matrix M st * placement M st = 1 ∧
    placement M st * world_matrix M st = 1 := by
  have hR := worldRotation_orthogonal M hM st
  have hprod : world_matrix M st * placement M st = 1 :=
    rigid_inverse (worldRotation M st) st.viewport_xyz.toFun hR
  refine ⟨?_, ?_, ?_, hprod, Matrix.mul_eq_one_comm.mp hprod⟩
  · ext i j
    fin_cases i <;> fin_cases j <;>
      simp [block33, world_matrix, Matrix.vecHead, Matrix.vecTail]
  · funext i
    fin_cases i <;>
      simp [world_matrix, Matrix.neg_mulVec, Matrix.vecHead, Matrix.vecTail]
  · funext j
    fin_cases j <;> simp [world_matrix, Matrix.vecHead, Matrix.vecTail]

/-- Witness of C14: the constructor's pose, orientation `(0, -45, -42)` and position
`(-8, -8, 8)`, with the rational math library. -/
theorem world_matrix_inverse_witness :
    (∀ t, ratMath.cos t ^ 2 + ratMath.sin t ^ 2 = 1) ∧
    world_matrix ratMath
        ⟨⟨0, -45, -42⟩, ⟨-8, -8, 8⟩, 1, ⟨0, -45, -42⟩, ⟨-8, -8, 8⟩, ⟨0, 0⟩, false, false⟩
      * placement ratMath
        ⟨⟨0, -45, -42⟩, ⟨-8, -8, 8⟩, 1, ⟨0, -45, -42⟩, ⟨-8, -8, 8⟩, ⟨0, 0⟩, false, false⟩
      = 1 :=
  ⟨ratMath_unit, (world_matrix_inverse ratMath ratMath_unit _).2.2.2.1⟩

/-- C15 as stated fails: over the reals, at orientation (roll, yaw, pitch) `(0, 90, 0)`
the rotation built by `world_matrix` is not `Rz(pitch) * Rx(roll) * Ry(yaw)`. -/
theorem worldRotation_order_counterexample :
    worldRotation (⟨Real.pi, Real.cos, Real.sin, Real.sqrt⟩ : MathLib ℝ)
        ⟨⟨0, 90, 0⟩, ⟨-8, -8, 8⟩, 1, ⟨0, 90, 0⟩, ⟨-8, -8, 8⟩, ⟨0, 0⟩, false, false⟩
      ≠ rotZ (⟨Real.pi, Real.cos, Real.sin, Real.sqrt⟩ : MathLib ℝ)
          (radians (⟨Real.pi, Real.cos, Real.sin, Real.sqrt⟩ : MathLib ℝ) 0)
        * (rotX (⟨Real.pi, Real.cos, Real.sin, Real.sqrt⟩ : MathLib ℝ)
            (radians (⟨Real.pi, Real.cos, Real.sin, Real.sqrt⟩ : MathLib ℝ) 0)
          * rotY (⟨Real.pi, Real.cos, Real.sin, Real.sqrt⟩ : MathLib ℝ)
            (radians (⟨Real.pi, Real.cos, Real.sin, Real.sqrt⟩ : MathLib ℝ) 90)) := by
  intro h
  rw [worldRotation_eq] at h
  have h22 := congrFun (congrFun h 2) 2
  have hq : (90 : ℝ) * Real.pi / 180 = Real.pi / 2 := by ring
  simp [rotX, rotY, rotZ, radians, Matrix.mul_apply, Fin.sum_univ_three, Matrix.vecHead,
    Matrix.vecTail, hq] at h22

/-- C15 amended: the rotation built by `world_matrix` is component `0` of the
orientation (roll) applied about the Y axis first, then component `2` (pitch) about the
X axis, then component `1` (yaw) about the Z axis, that is
`R = Rz(yaw) * Rx(pitch) * Ry(roll)`, each angle converted from degrees to radians. -/
theorem worldRotation_composition_order {K : Type} [LinearOrderedField K] (M : MathLib K)
    (st : CameraState K) :
    worldRotation M st
      = rotZ M (st.viewport_ryp.y * M.pi / 180)
        * (rotX M (st.viewport_ryp.z * M.pi / 180)
          * rotY M (st.viewport_ryp.x * M.pi / 180)) :=
  worldRotation_eq M st

end MatrixTheorems

section DragTheorems

/-- A triple rebuilt from its column vector. -/
theorem Vector3f.ofFun_toFun {K : Type} [LinearOrderedField K] (v : Vector3f K) :
    Vector3f.ofFun v.toFun = v := by
  obtain ⟨x, y, z⟩ := v
  simp [Vector3f.ofFun, Vector3f.toFun]

/-- The upper-left block of `view_matrix * world_matrix` in terms of the rotation of
`world_matrix`; the position does not enter. -/
theorem block33_view_world {K : Type} [LinearOrderedField K] (M : MathLib K)
    (st : CameraState K) :
    block33 (view_matrix * world_matrix M st)
      = !![worldRotation M st 0 0, worldRotation M st 1 0, worldRotation M st 2 0;
           -worldRotation M st 0 2, -worldRotation M st 1 2, -worldRotation M st 2 2;
           worldRotation M st 0 1, worldRotation M st 1 1, worldRotation M st 2 1] := by
  generalize hR : worldRotation M st = R
  simp [block33, view_matrix, world_matrix, hR, Matrix.mul_apply, Fin.sum_univ_four,
    Matrix.vecHead, Matrix.vecTail]

/-- The basis `world_view_dcm` depends on the orientation only. -/
theorem world_view_dcm_congr {K : Type} [LinearOrderedField K] (M : MathLib K)
    (st st2 : CameraState K) (h : st.viewport_ryp = st2.viewport_ryp) :
    world_view_dcm M st = world_view_dcm M st2 := by
  unfold world_view_dcm
  rw [block33_view_world, block33_view_world, worldRotation_eq, worldRotation_eq, h]

/-- C16: a button-down event with button `0` or `1` at cursor `p` sets the baseline
position and orientation to the current ones and the baseline cursor to `p`, and leaves
position, orientation and scale unchanged; a motion event at the same cursor `p` right
afterwards, with any modifiers, leaves position and orientation unchanged. -/
theorem press_snapshot {K : Type} [LinearOrderedField K] (M : MathLib K)
    (st : CameraState K) (p rel : Vector2i) (button modifiers button2 modifiers2 : Int)
    (hb : button = 0 ∨ button = 1) :
    (mouseButtonEvent st p button true modifiers).viewport_xyz_old = st.viewport_xyz ∧
    (mouseButtonEvent st p button true modifiers).viewport_ryp_old = st.viewport_ryp ∧
    (mouseButtonEvent st p button true modifiers).viewport_cursor_old = p ∧
    (mouseButtonEvent st p button true modifiers).viewport_xyz = st.viewport_xyz ∧
    (mouseButtonEvent st p button true modifiers).viewport_ryp = st.viewport_ryp ∧
    (mouseButtonEvent st p button true modifiers).viewport_scale = st.viewport_scale ∧
    (mouseMotionEvent M (mouseButtonEvent st p button true modifiers) p rel button2
        modifiers2).viewport_xyz = st.viewport_xyz ∧
    (mouseMotionEvent M (mouseButtonEvent st p button true modifiers) p rel button2
        modifiers2).viewport_ryp = st.viewport_ryp := by
  have hv : ∀ v : Vector3f K, (⟨v.x, v.y, v.z⟩ : Vector3f K) = v := fun v => rfl
  have hz : (![0, 0] : Fin 2 → K) = 0 := by
    funext i
    fin_cases i <;> rfl
  rcases hb with rfl | rfl
  · refine ⟨by simp [mouseButtonEvent], by simp [mouseButtonEvent],
      by simp [mouseButtonEvent], by simp [mouseButtonEvent], by simp [mouseButtonEvent],
      by simp [mouseButtonEvent], ?_, ?_⟩
    · by_cases h0 : modifiers2 = 0
      · simp [mouseButtonEvent, mouseMotionEvent, dragDelta, h0, hz, Matrix.mulVec_zero,
          Vector3f.ofFun_toFun]
      · by_cases h1 : modifiers2 = 1
        · simp [mouseButtonEvent, mouseMotionEvent, dragDelta, h1, Vector3f.ofFun,
            Vector3f.toFun, hv]
        · simp [mouseButtonEvent, mouseMotionEvent, dragDelta, h0, h1,
            Vector3f.ofFun_toFun]
    · simp [mouseButtonEvent, mouseMotionEvent]
  · refine ⟨by simp [mouseButtonEvent], by simp [mouseButtonEvent],
      by simp [mouseButtonEvent], by simp [mouseButtonEvent], by simp [mouseButtonEvent],
      by simp [mouseButtonEvent], ?_, ?_⟩
    · simp [mouseButtonEvent, mouseMotionEvent]
    · simp [mouseButtonEvent, mouseMotionEvent, dragDelta, hv]

/-- Witness of C16: a press of button `0` at cursor `(3, 4)` on the constructor state,
then a motion at `(3, 4)` with modifiers `1`. -/
theorem press_snapshot_witness :
    ((0 : Int) = 0 ∨ (0 : Int) = 1) ∧
    (mouseButtonEvent (CameraState.init (K := ℚ) ⟨0, 0, 0⟩ ⟨0, 0, 0⟩ ⟨0, 0⟩ false false)
        ⟨3, 4⟩ 0 true 0).viewport_xyz_old = ⟨-8, -8, 8⟩ ∧
    (mouseMotionEvent ratMath
        (mouseButtonEvent (CameraState.init (K := ℚ) ⟨0, 0, 0⟩ ⟨0, 0, 0⟩ ⟨0, 0⟩ false false)
          ⟨3, 4⟩ 0 true 0)
        ⟨3, 4⟩ ⟨0, 0⟩ 0 1).viewport_xyz = ⟨-8, -8, 8⟩ :=
  ⟨Or.inl rfl,
   (press_snapshot ratMath (CameraState.init ⟨0, 0, 0⟩ ⟨0, 0, 0⟩ ⟨0, 0⟩ false false)
      ⟨3, 4⟩ ⟨0, 0⟩ 0 0 0 1 (Or.inl rfl)).1,
   (press_snapshot ratMath (CameraState.init ⟨0, 0, 0⟩ ⟨0, 0, 0⟩ ⟨0, 0⟩ false false)
      ⟨3, 4⟩ ⟨0, 0⟩ 0 0 0 1 (Or.inl rfl)).2.2.2.2.2.2.1⟩

/-- C18: for every camera state and every two motion events, applying the first and then
the second gives exactly the camera state that the second alone gives. -/
theorem motion_path_independence {K : Type} [LinearOrderedField K] (M : MathLib K)
    (st : CameraState K) (p1 rel1 p2 rel2 : Vector2i)
    (button1 modifiers1 button2 modifiers2 : Int) :
    mouseMotionEvent M (mouseMotionEvent M st p1 rel1 button1 modifiers1) p2 rel2 button2
        modifiers2
      = mouseMotionEvent M st p2 rel2 button2 modifiers2 := by
  by_cases hr : st.viewport_rotation_mode = true
  · simp [mouseMotionEvent, hr, dragDelta]
  · by_cases ht : st.viewport_translation_mode = true
    · have hd : ∀ (v : Vector3f K) (a b : Bool),
          world_view_dcm M ⟨st.viewport_ryp, v, st.viewport_scale, st.viewport_ryp_old,
            st.viewport_xyz_old, st.viewport_cursor_old, a, b⟩ = world_view_dcm M st :=
        fun v a b => world_view_dcm_congr M _ _ rfl
      simp [mouseMotionEvent, hr, ht, dragDelta, hd]
    · simp [mouseMotionEvent, hr, ht]

/-- C19: in Translating mode a motion event whose modifiers value is neither `0` nor
`1` sets the position to the baseline position, whatever the cursor, and leaves
orientation and scale unchanged. -/
theorem pan_unrecognised_modifier {K : Type} [LinearOrderedField K] (M : MathLib K)
    (st : CameraState K) (p rel : Vector2i) (button modifiers : Int)
    (hrot : st.viewport_rotation_mode = false) (htr : st.viewport_translation_mode = true)
    (h0 : modifiers ≠ 0) (h1 : modifiers ≠ 1) :
    (mouseMotionEvent M st p rel button modifiers).viewport_xyz = st.viewport_xyz_old ∧
    (mouseMotionEvent M st p rel button modifiers).viewport_ryp = st.viewport_ryp ∧
    (mouseMotionEvent M st p rel button modifiers).viewport_scale = st.viewport_scale := by
  simp [mouseMotionEvent, hrot, htr, h0, h1, Vector3f.ofFun_toFun]

/-- Witness of C19: a pan that had moved the position to `(1, 2, 3)` from the baseline
`(-8, -8, 8)` snaps back on a motion event with modifiers `2`. -/
theorem pan_unrecognised_modifier_witness :
    (2 : Int) ≠ 0 ∧ (2 : Int) ≠ 1 ∧
    (mouseMotionEvent ratMath
        ⟨⟨0, -45, -42⟩, ⟨1, 2, 3⟩, 1, ⟨0, -45, -42⟩, ⟨-8, -8, 8⟩, ⟨3, 4⟩, false, true⟩
        ⟨50, 60⟩ ⟨1, 1⟩ 0 2).viewport_xyz = ⟨-8, -8, 8⟩ :=
  ⟨by decide, by decide,
   (pan_unrecognised_modifier ratMath
      ⟨⟨0, -45, -42⟩, ⟨1, 2, 3⟩, 1, ⟨0, -45, -42⟩, ⟨-8, -8, 8⟩, ⟨3, 4⟩, false, true⟩
      ⟨50, 60⟩ ⟨1, 1⟩ 0 2 rfl rfl (by decide) (by decide)).1⟩

end DragTheorems

section RepeatTheorems

/-- C17: one tick of the interval closure of `add_repeat` calls the predicate once if
the button is pushed and not at all otherwise; it returns, and leaves the button pushed,
exactly when the button was pushed and the predicate returned true; `setPushed(false)`
is called exactly when the button was pushed and the predicate returned false.  The
closure is installed, with interval `1`, only by a change to pushed with a non-empty
predicate. -/
theorem repeatTick_spec {W C : Type} (callback : W → Bool × W) (w : RepeatWorld W)
    (closure : C) (intervals : List (C × Nat)) :
    (repeatTick callback w).1.callbackCalls
      = w.callbackCalls + (if w.button.pushed = true then 1 else 0) ∧
    (repeatTick callback w).1.user
      = (if w.button.pushed = true then (callback w.user).2 else w.user) ∧
    (repeatTick callback w).1.button.pushed = (w.button.pushed && (callback w.user).1) ∧
    (repeatTick callback w).2 = (w.button.pushed && (callback w.user).1) ∧
    (repeatTick callback w).1.button.setPushedCalls
      = (if w.button.pushed = true ∧ (callback w.user).1 = false
         then w.button.setPushedCalls ++ [false] else w.button.setPushedCalls) ∧
    repeatChangeCallback (some closure) true intervals = intervals ++ [(closure, 1)] ∧
    repeatChangeCallback (some closure) false intervals = intervals ∧
    repeatChangeCallback (none : Option C) true intervals = intervals ∧
    repeatChangeCallback (none : Option C) false intervals = intervals := by
  obtain ⟨⟨pushed, calls⟩, user, n⟩ := w
  cases pushed <;> cases h : (callback user).1 <;>
    simp [repeatTick, repeatChangeCallback, Button.setPushed, h]

end RepeatTheorems

section ProjectionTheorems

/-- C20: for `near ≠ far`, both non-zero, and a window of non-zero width and height,
`proj_matrix(near, far)` maps `(x, y, z, 1)` to clip `w = z`; a point at depth `near` has
normalised depth `-1` and a point at depth `far` has normalised depth `1`; entry `(1, 1)`
is `-2` whatever the window size and entry `(0, 0)` is `2 * height / width`. -/
theorem proj_matrix_depth {K : Type} [LinearOrderedField K] (width height : Int)
    (near far x y z : K) (hnf : near ≠ far) (hn : near ≠ 0) (hf : far ≠ 0)
    (_hw : width ≠ 0) (hh : height ≠ 0) :
    (proj_matrix width height near far).mulVec (homogeneous x y z) 3 = z ∧
    (proj_matrix width height near far).mulVec (homogeneous x y near) 2
      / (proj_matrix width height near far).mulVec (homogeneous x y near) 3 = -1 ∧
    (proj_matrix width height near far).mulVec (homogeneous x y far) 2
      / (proj_matrix width height near far).mulVec (homogeneous x y far) 3 = 1 ∧
    proj_matrix width height near far 1 1 = -2 ∧
    proj_matrix width height near far 0 0 = 2 * (height : K) / (width : K) := by
  have h1 : far - near ≠ 0 := sub_ne_zero.mpr (Ne.symm hnf)
  have h2 : near - far ≠ 0 := sub_ne_zero.mpr hnf
  have h3 : (height : K) ≠ 0 := Int.cast_ne_zero.mpr hh
  refine ⟨?_, ?_, ?_, ?_, ?_⟩
  · simp [proj_matrix, homogeneous, Matrix.mulVec, Matrix.dotProduct, Fin.sum_univ_four,
      Matrix.vecHead, Matrix.vecTail]
  · simp [proj_matrix, homogeneous, Matrix.mulVec, Matrix.dotProduct, Fin.sum_univ_four,
      Matrix.vecHead, Matrix.vecTail]
    have h4 : near - far = -(far - near) := by ring
    rw [h4]
    field_simp
    ring
  · simp [proj_matrix, homogeneous, Matrix.mulVec, Matrix.dotProduct, Fin.sum_univ_four,
      Matrix.vecHead, Matrix.vecTail]
    have h4 : near - far = -(far - near) := by ring
    rw [h4]
    field_simp
    ring
  · simp [proj_matrix, Matrix.vecHead, Matrix.vecTail]
    field_simp
  · simp [proj_matrix]

/-- Witness of C20: a window of `640` by `480` pixels with `near = 1` and `far = 10`. -/
theorem proj_matrix_depth_witness :
    (1 : ℚ) ≠ 10 ∧
    (proj_matrix 640 480 (1 : ℚ) 10).mulVec (homogeneous 2 3 1) 2
      / (proj_matrix 640 480 (1 : ℚ) 10).mulVec (homogeneous 2 3 1) 3 = -1 ∧
    (proj_matrix 640 480 (1 : ℚ) 10).mulVec (homogeneous 2 3 10) 2
      / (proj_matrix 640 480 (1 : ℚ) 10).mulVec (homogeneous 2 3 10) 3 = 1 ∧
    proj_matrix 640 480 (1 : ℚ) 10 0 0 = 3 / 2 := by
  have h := proj_matrix_depth 640 480 (1 : ℚ) 10 2 3 5 (by norm_num) (by norm_num)
    (by norm_num) (by decide) (by decide)
  refine ⟨by norm_num, h.2.1, h.2.2.1, ?_⟩
  rw [h.2.2.2.2]
  norm_num

end ProjectionTheorems

end NanoVis
